import Mathlib

/-!
# Verification of the rate-cache synchronization subsystem

Shallow embedding of the Parser Service of `valutatrade_hub`
(`parser_service/storage.py`, `parser_service/api_clients.py`,
`parser_service/updater.py`) together with proofs about the embedded
operations.

Conventions of the embedding:
- Python `str` timestamps are Lean `String`s; Python compares them
  lexicographically by code point, which is the lexicographic order on
  their character lists, so every timestamp comparison is embedded as the
  `List Char` comparison `a.data ≤ b.data` (executable by the kernel,
  unlike the comparison on `String` itself).
- Python `float` rates are modelled as `Rat` (the claims under study do not
  depend on floating-point rounding).
- A Python `dict` is modelled as an association list in insertion order;
  `setKey` models `d[k] = v` (overwrite in place, append if new) and
  `lookupKey` models `d.get(k)`.
- Fallible code returns `Except PyError α`; the `PyError` constructors
  mirror the exception classes that can escape each function.
- File-system effects are made explicit: readers take the state of the
  backing file (`FileState`) and return it unchanged alongside the result;
  writers are modelled by returning the new persisted content.
-/

namespace ValutaTrade

/-- Exception kinds that the embedded code can raise.

`storageError` is *modelled from the spec*: the class `StorageError` is
imported from `valutatrade_hub.core.exceptions` throughout `src`, but its
declaration is not present under `src/`; per the spec's error taxonomy it is
a dedicated exception kind for malformed on-disk containers and I/O
failures, distinct from `ValueError` and from the built-in `TypeError`,
`AttributeError` and `KeyError` (modelled by the next constructors).
`apiRequestError` models `core.exceptions.ApiRequestError` and carries the
`reason` passed to the constructor (Python's `str(e)` prepends
`"Ошибка при обращении к внешнему API: "` to it). -/
inductive PyError where
  | storageError (msg : String)
  | valueError (msg : String)
  | typeError (msg : String)
  | attrError (msg : String)
  | keyError (msg : String)
  | apiRequestError (reason : String)
deriving DecidableEq, Repr

/-- One entry of the `pairs` table of `rates.json`
(`{"rate": ..., "updated_at": ..., "source": ...}`). -/
structure CacheEntry where
  rate : Rat
  updated_at : String
  source : String
deriving DecidableEq, Repr

/-- The parsed content of `rates.json` in its canonical shape. -/
structure RatesCache where
  pairs : List (String × CacheEntry)
  last_refresh : Option String
deriving DecidableEq, Repr

/-- `d.get(k)` on an insertion-ordered Python dict modelled as an
association list. -/
def lookupKey {α : Type} : List (String × α) → String → Option α
  | [], _ => none
  | (k, v) :: rest, key => if k = key then some v else lookupKey rest key

/-- `d[k] = v` on an insertion-ordered Python dict: overwrite in place if
the key exists, append otherwise. -/
def setKey {α : Type} : List (String × α) → String → α → List (String × α)
  | [], key, v => [(key, v)]
  | (k, w) :: rest, key, v =>
    if k = key then (k, v) :: rest else (k, w) :: setKey rest key v

/-- `'A' <= c <= 'Z'`, the character class `[A-Z]` of
`CURRENCY_CODE_PATTERN`. -/
def isUpperAZ (c : Char) : Bool :=
  decide ('A' ≤ c) && decide (c ≤ 'Z')

/-- The body of the regex `[A-Z]{2,5}`: two to five uppercase letters. -/
def regexCore (cs : List Char) : Bool :=
  decide (2 ≤ cs.length) && decide (cs.length ≤ 5) && cs.all isUpperAZ

/-- `validate_currency_code` (storage.py): `re.match` of the anchored
pattern `[A-Z]{2,5}` between the begin anchor and the end anchor.  In
Python's `re` the end anchor also matches just before a single newline that
terminates the string, so a code with one trailing newline is accepted. -/
def validate_currency_code (code : String) : Bool :=
  regexCore code.data ||
    (code.data.getLast? == some (Char.ofNat 10) && regexCore code.data.dropLast)

/-- Python `s.split("_")`: split at every underscore, keeping empty parts;
the result is never empty (splitting the empty string gives `[""]`).
Defined on the character list so that it is executable by the kernel. -/
def splitUnderscore : List Char → List (List Char)
  | [] => [[]]
  | c :: rest =>
    match splitUnderscore rest with
    | [] => [[]]
    | hd :: tl => if c = '_' then [] :: hd :: tl else (c :: hd) :: tl

/-- `parse_pair` (storage.py): split on the underscore, require exactly two
parts, validate both currency codes.  Raises `ValueError` otherwise. -/
def parse_pair (pair : String) : Except PyError (String × String) :=
  match (splitUnderscore pair.data).map String.mk with
  | [from_currency, to_currency] =>
    if !validate_currency_code from_currency then
      .error (.valueError ("Invalid FROM currency in pair: " ++ from_currency))
    else if !validate_currency_code to_currency then
      .error (.valueError ("Invalid TO currency in pair: " ++ to_currency))
    else .ok (from_currency, to_currency)
  | _ => .error (.valueError ("Invalid pair format: " ++ pair ++ ". Expected FROM_TO"))

/-- Result of one `update_rates_cache` call.

`cache` is the content persisted by the final `write_rates_cache`,
`updated_count` the value of the local counter that the function logs, and
`ret` the value returned to the caller — the Python function is annotated
`-> None` and has no return statement, so `ret` is always `none`. -/
structure UpdateResult where
  cache : RatesCache
  updated_count : Nat
  ret : Option Nat
deriving DecidableEq, Repr

/-- The `for pair, rate in rates.items()` loop of `update_rates_cache`:
validate the pair key, then skip the pair when the cached timestamp is at
least as fresh (`cached_timestamp >= timestamp`), otherwise overwrite the
entry and bump the counter.  A `ValueError` from `parse_pair` aborts the
whole call before anything is persisted. -/
def updateLoop (source timestamp : String) :
    List (String × Rat) → List (String × CacheEntry) → Nat →
    Except PyError (List (String × CacheEntry) × Nat)
  | [], pairs, cnt => .ok (pairs, cnt)
  | (pair, rate) :: rest, pairs, cnt =>
    match parse_pair pair with
    | .error e => .error e
    | .ok _ =>
      match lookupKey pairs pair with
      | some cached =>
        if timestamp.data ≤ cached.updated_at.data then
          updateLoop source timestamp rest pairs cnt
        else
          updateLoop source timestamp rest
            (setKey pairs pair ⟨rate, timestamp, source⟩) (cnt + 1)
      | none =>
        updateLoop source timestamp rest
          (setKey pairs pair ⟨rate, timestamp, source⟩) (cnt + 1)

/-- `update_rates_cache` (storage.py): run the merge loop over the incoming
rates, then unconditionally set `last_refresh = timestamp` and persist.
The input dict is the association list `rates`, the pre-call file content is
`cache`. -/
def update_rates_cache (rates : List (String × Rat)) (source timestamp : String)
    (cache : RatesCache) : Except PyError UpdateResult :=
  match updateLoop source timestamp rates cache.pairs 0 with
  | .error e => .error e
  | .ok (pairs, cnt) => .ok ⟨⟨pairs, some timestamp⟩, cnt, none⟩

/-- One `mergeUpdate` touching a fixed pair, abstracted to that pair's
entry: the rate, observation timestamp and source label of the call. -/
structure RateUpdate where
  rate : Rat
  observedAt : String
  source : String
deriving DecidableEq, Repr

/-- Effect of one `update_rates_cache` call on the entry of one pair
contained in the call: keep the stored entry when it is at least as fresh,
otherwise overwrite (this is the loop body of `update_rates_cache` at a
single key; `update_singleton_lookup` below connects the two). -/
def applyUpdate (u : RateUpdate) : Option CacheEntry → Option CacheEntry
  | some entry =>
    if u.observedAt.data ≤ entry.updated_at.data then some entry
    else some ⟨u.rate, u.observedAt, u.source⟩
  | none => some ⟨u.rate, u.observedAt, u.source⟩

/-- A whole sequence of `mergeUpdate` calls touching the same pair, applied
in list order to an initial entry. -/
def foldUpdates (e : Option CacheEntry) (l : List RateUpdate) : Option CacheEntry :=
  l.foldl (fun st u => applyUpdate u st) e

-- Association-list lemmas.

theorem lookup_setKey_self {α : Type} (ps : List (String × α)) (k : String) (v : α) :
    lookupKey (setKey ps k v) k = some v := by
  induction ps with
  | nil => simp [setKey, lookupKey]
  | cons hd tl ih =>
    obtain ⟨k₀, v₀⟩ := hd
    by_cases h : k₀ = k
    · simp [setKey, lookupKey, h]
    · simp [setKey, lookupKey, h, ih]

theorem lookup_setKey_ne {α : Type} (ps : List (String × α)) (k k' : String) (v : α)
    (h : k' ≠ k) : lookupKey (setKey ps k v) k' = lookupKey ps k' := by
  induction ps with
  | nil => simp [setKey, lookupKey, Ne.symm h]
  | cons hd tl ih =>
    obtain ⟨k₀, v₀⟩ := hd
    by_cases hk : k₀ = k
    · subst hk
      simp [setKey, lookupKey, Ne.symm h]
    · by_cases hk' : k₀ = k'
      · simp [setKey, lookupKey, hk, hk', h]
      · simp [setKey, lookupKey, hk, hk', ih]

/-- A call of `update_rates_cache` whose dict is the singleton `{p: r}`
changes the entry stored at `p` exactly by `applyUpdate`. -/
theorem update_singleton_lookup (p : String) (r : Rat) (src t : String)
    (cache : RatesCache) (res : UpdateResult)
    (h : update_rates_cache [(p, r)] src t cache = .ok res) :
    lookupKey res.cache.pairs p = applyUpdate ⟨r, t, src⟩ (lookupKey cache.pairs p) := by
  cases hp : parse_pair p with
  | error e => simp [update_rates_cache, updateLoop, hp] at h
  | ok pr =>
    cases hl : lookupKey cache.pairs p with
    | none =>
      simp [update_rates_cache, updateLoop, hp, hl] at h
      subst h
      simp [applyUpdate, lookup_setKey_self]
    | some cached =>
      by_cases ht : t.data ≤ cached.updated_at.data
      · simp [update_rates_cache, updateLoop, hp, hl, ht] at h
        subst h
        simp [applyUpdate, hl, ht]
      · simp [update_rates_cache, updateLoop, hp, hl, ht] at h
        subst h
        simp [applyUpdate, hl, ht, lookup_setKey_self]

/-- Timestamp of an optional cache entry, with `⊥` for an absent entry. -/
def tOf : Option CacheEntry → WithBot (List Char)
  | none => ⊥
  | some entry => (entry.updated_at.data : WithBot (List Char))

theorem tOf_applyUpdate (u : RateUpdate) (e : Option CacheEntry) :
    tOf (applyUpdate u e) = max (tOf e) (u.observedAt.data : WithBot (List Char)) := by
  cases e with
  | none => simp [tOf, applyUpdate]
  | some entry =>
    by_cases ht : u.observedAt.data ≤ entry.updated_at.data
    · simp [tOf, applyUpdate, ht, max_eq_left (WithBot.coe_le_coe.mpr ht)]
    · have hlt := lt_of_not_le ht
      simp [tOf, applyUpdate, ht,
        max_eq_right (le_of_lt (WithBot.coe_lt_coe.mpr hlt))]

theorem applyUpdate_of_le (u : RateUpdate) (e : Option CacheEntry)
    (h : (u.observedAt.data : WithBot (List Char)) ≤ tOf e) : applyUpdate u e = e := by
  cases e with
  | none => exact absurd h (by simp [tOf])
  | some entry =>
    have : u.observedAt.data ≤ entry.updated_at.data := WithBot.coe_le_coe.mp h
    simp [applyUpdate, this]

theorem applyUpdate_of_lt (u : RateUpdate) (e : Option CacheEntry)
    (h : tOf e < (u.observedAt.data : WithBot (List Char))) :
    applyUpdate u e = some ⟨u.rate, u.observedAt, u.source⟩ := by
  cases e with
  | none => simp [applyUpdate]
  | some entry =>
    have hlt : entry.updated_at.data < u.observedAt.data := WithBot.coe_lt_coe.mp h
    simp [applyUpdate, not_le.mpr hlt]

theorem foldUpdates_of_all_le (l : List RateUpdate) (e : Option CacheEntry)
    (h : ∀ v ∈ l, (v.observedAt.data : WithBot (List Char)) ≤ tOf e) : foldUpdates e l = e := by
  induction l with
  | nil => rfl
  | cons a l ih =>
    have ha := applyUpdate_of_le a e (h a (List.mem_cons_self a l))
    simpa [foldUpdates, ha] using ih fun v hv => h v (List.mem_cons_of_mem a hv)

theorem applyUpdate_comm (u v : RateUpdate) (e : Option CacheEntry)
    (hne : u.observedAt.data ≠ v.observedAt.data) :
    applyUpdate v (applyUpdate u e) = applyUpdate u (applyUpdate v e) := by
  cases e with
  | none =>
    rcases lt_or_gt_of_ne hne with hlt | hgt
    · simp [applyUpdate, not_le.mpr hlt, le_of_lt hlt]
    · simp [applyUpdate, not_le.mpr hgt, le_of_lt hgt]
  | some entry =>
    by_cases hu : u.observedAt.data ≤ entry.updated_at.data
    · by_cases hv : v.observedAt.data ≤ entry.updated_at.data
      · simp [applyUpdate, hu, hv]
      · have huv : u.observedAt.data ≤ v.observedAt.data :=
          le_of_lt (lt_of_le_of_lt hu (lt_of_not_le hv))
        simp [applyUpdate, hu, hv, huv]
    · by_cases hv : v.observedAt.data ≤ entry.updated_at.data
      · have hvu : v.observedAt.data ≤ u.observedAt.data :=
          le_of_lt (lt_of_le_of_lt hv (lt_of_not_le hu))
        simp [applyUpdate, hu, hv, hvu]
      · rcases lt_or_gt_of_ne hne with hlt | hgt
        · simp [applyUpdate, hu, hv, not_le.mpr hlt, le_of_lt hlt]
        · simp [applyUpdate, hu, hv, not_le.mpr hgt, le_of_lt hgt]

theorem foldUpdates_perm (l l' : List RateUpdate) (e : Option CacheEntry)
    (hp : List.Perm l l') (hnd : (l.map RateUpdate.observedAt).Nodup) :
    foldUpdates e l = foldUpdates e l' := by
  refine hp.foldl_eq' (fun x hx y hy z => ?_) e
  by_cases hxy : x = y
  · subst hxy; rfl
  · have hne : x.observedAt.data ≠ y.observedAt.data := by
      intro hcontra
      have : x.observedAt = y.observedAt := congrArg String.mk hcontra
      exact hxy (List.inj_on_of_nodup_map hnd hx hy this)
    exact applyUpdate_comm x y z hne

theorem foldUpdates_latest (l : List RateUpdate) (e : Option CacheEntry) (u : RateUpdate)
    (hu : u ∈ l) (hmax : ∀ v ∈ l, v ≠ u → v.observedAt.data < u.observedAt.data)
    (hfresh : tOf e < (u.observedAt.data : WithBot (List Char))) :
    foldUpdates e l = some ⟨u.rate, u.observedAt, u.source⟩ := by
  induction l generalizing e with
  | nil => cases hu
  | cons a l ih =>
    by_cases hau : a = u
    · subst hau
      have ha : applyUpdate a e = some ⟨a.rate, a.observedAt, a.source⟩ :=
        applyUpdate_of_lt a e hfresh
      have hrest : ∀ v ∈ l, (v.observedAt.data : WithBot (List Char)) ≤
          tOf (some (⟨a.rate, a.observedAt, a.source⟩ : CacheEntry)) := by
        intro v hv
        by_cases hva : v = a
        · subst hva; simp [tOf]
        · exact le_of_lt (WithBot.coe_lt_coe.mpr
            (hmax v (List.mem_cons_of_mem a hv) hva))
      calc foldUpdates e (a :: l)
          = foldUpdates (some ⟨a.rate, a.observedAt, a.source⟩) l := by
            simp [foldUpdates, ha]
        _ = some ⟨a.rate, a.observedAt, a.source⟩ :=
            foldUpdates_of_all_le l _ hrest
    · have hu' : u ∈ l := by
        rcases List.mem_cons.mp hu with h | h
        · exact absurd h.symm hau
        · exact h
      have halt : a.observedAt.data < u.observedAt.data := hmax a (List.mem_cons_self a l) hau
      have hfresh' : tOf (applyUpdate a e) < (u.observedAt.data : WithBot (List Char)) := by
        rw [tOf_applyUpdate]
        exact max_lt hfresh (WithBot.coe_lt_coe.mpr halt)
      have := ih (e := applyUpdate a e) hu'
        (fun v hv hvu => hmax v (List.mem_cons_of_mem a hv) hvu) hfresh'
      simpa [foldUpdates] using this

/-- C1 (counterexample): the stored rate after a sequence of `mergeUpdate`
calls on the same pair does depend on the order the calls were applied.
Two calls for `EUR_USD` share the timestamp `T1` but carry rates `1` and
`2`; whichever is applied first wins (the second is skipped by the
`cached_timestamp >= timestamp` check), so the two application orders leave
different rates in the cache and the result cannot equal "the rate from the
call with the latest observedAt" in both orders. -/
theorem mergeUpdate_order_dependent_cex :
    (update_rates_cache [("EUR_USD", 1)] "s" "T1" ⟨[], none⟩ =
      .ok ⟨⟨[("EUR_USD", ⟨1, "T1", "s"⟩)], some "T1"⟩, 1, none⟩)
    ∧ (update_rates_cache [("EUR_USD", 2)] "s" "T1"
        ⟨[("EUR_USD", ⟨1, "T1", "s"⟩)], some "T1"⟩ =
      .ok ⟨⟨[("EUR_USD", ⟨1, "T1", "s"⟩)], some "T1"⟩, 0, none⟩)
    ∧ (update_rates_cache [("EUR_USD", 2)] "s" "T1" ⟨[], none⟩ =
      .ok ⟨⟨[("EUR_USD", ⟨2, "T1", "s"⟩)], some "T1"⟩, 1, none⟩)
    ∧ (update_rates_cache [("EUR_USD", 1)] "s" "T1"
        ⟨[("EUR_USD", ⟨2, "T1", "s"⟩)], some "T1"⟩ =
      .ok ⟨⟨[("EUR_USD", ⟨2, "T1", "s"⟩)], some "T1"⟩, 0, none⟩)
    ∧ lookupKey [("EUR_USD", (⟨1, "T1", "s"⟩ : CacheEntry))] "EUR_USD" ≠
        lookupKey [("EUR_USD", (⟨2, "T1", "s"⟩ : CacheEntry))] "EUR_USD" := by
  refine ⟨by rfl, by rfl, by rfl, by rfl, by decide⟩

/-- C1 (amended): per-call freshness semantics of `update_rates_cache` on a
single pair.  (1) A singleton call rewrites the stored entry of its pair by
`applyUpdate`; (2) the entry is overwritten when the call's `observedAt`
is strictly greater than the stored `updated_at`; (3) it is kept unchanged
when the stored value is at least as fresh; (4) merging the same
`(pair, rate, observedAt)` twice leaves the entry unchanged after the
second call; (5) when the calls of a sequence carry pairwise-distinct
`observedAt` timestamps, the final entry is independent of the order of
application; (6) when moreover some call is strictly fresher than the
initial entry and strictly fresher than every other call, the final stored
rate is that call's rate. -/
theorem mergeUpdate_freshness :
    (∀ p r src t cache res, update_rates_cache [(p, r)] src t cache = .ok res →
      lookupKey res.cache.pairs p = applyUpdate ⟨r, t, src⟩ (lookupKey cache.pairs p))
    ∧ (∀ u entry, entry.updated_at.data < u.observedAt.data →
        applyUpdate u (some entry) = some ⟨u.rate, u.observedAt, u.source⟩)
    ∧ (∀ u entry, u.observedAt.data ≤ entry.updated_at.data →
        applyUpdate u (some entry) = some entry)
    ∧ (∀ u e, applyUpdate u (applyUpdate u e) = applyUpdate u e)
    ∧ (∀ l l' e, List.Perm l l' → (l.map RateUpdate.observedAt).Nodup →
        foldUpdates e l = foldUpdates e l')
    ∧ (∀ l e u, u ∈ l → (∀ v ∈ l, v ≠ u → v.observedAt.data < u.observedAt.data) →
        tOf e < (u.observedAt.data : WithBot (List Char)) →
        foldUpdates e l = some ⟨u.rate, u.observedAt, u.source⟩) := by
  refine ⟨update_singleton_lookup, ?_, ?_, ?_, ?_, ?_⟩
  · intro u entry h
    simpa using applyUpdate_of_lt u (some entry) (by simpa [tOf] using h)
  · intro u entry h
    simpa using applyUpdate_of_le u (some entry) (by simpa [tOf] using h)
  · intro u e
    cases e with
    | none => simp [applyUpdate]
    | some entry =>
      by_cases ht : u.observedAt.data ≤ entry.updated_at.data
      · simp [applyUpdate, ht]
      · simp [applyUpdate, ht]
  · intro l l' e hp hnd
    exact foldUpdates_perm l l' e hp hnd
  · intro l e u hu hmax hfresh
    exact foldUpdates_latest l e u hu hmax hfresh

/-- C1 (witness): the amended theorem applied at concrete inputs: a
singleton call bridge fact at pair `EUR_USD`, and a two-call sequence with
distinct timestamps whose freshest call (rate `7` at `T2`) determines the
final entry from an initial entry at `T0`. -/
theorem mergeUpdate_freshness_witness :
    lookupKey [("EUR_USD", ⟨3, "T1", "s"⟩)] "EUR_USD" =
      applyUpdate ⟨3, "T1", "s"⟩ (lookupKey [] "EUR_USD")
    ∧ foldUpdates (some ⟨5, "T0", "a"⟩) [⟨7, "T2", "b"⟩, ⟨6, "T1", "c"⟩] =
        some ⟨7, "T2", "b"⟩ :=
  ⟨mergeUpdate_freshness.1 "EUR_USD" 3 "s" "T1" ⟨[], none⟩
      ⟨⟨[("EUR_USD", ⟨3, "T1", "s"⟩)], some "T1"⟩, 1, none⟩ (by rfl),
   mergeUpdate_freshness.2.2.2.2.2 [⟨7, "T2", "b"⟩, ⟨6, "T1", "c"⟩]
      (some ⟨5, "T0", "a"⟩) ⟨7, "T2", "b"⟩ (by decide) (by decide)
      (WithBot.coe_lt_coe.mpr (by decide : ("T0".data : List Char) < "T2".data))⟩

/-! ## C5: `last_refresh` is set unconditionally -/

/-- C5: after every successful `update_rates_cache` call the persisted
snapshot's `last_refresh` equals the call's timestamp, regardless of how
many pairs were applied and regardless of the previously stored value. -/
theorem mergeUpdate_sets_last_refresh (rates : List (String × Rat)) (src t : String)
    (cache : RatesCache) (res : UpdateResult)
    (h : update_rates_cache rates src t cache = .ok res) :
    res.cache.last_refresh = some t := by
  cases hl : updateLoop src t rates cache.pairs 0 with
  | error e => simp [update_rates_cache, hl] at h
  | ok pc =>
    obtain ⟨ps, cnt⟩ := pc
    simp [update_rates_cache, hl] at h
    subst h
    rfl

/-- C5 (witness): a call at timestamp `T1`, older than the stored
`last_refresh = T5`, whose only pair is skipped by the freshness check
(zero pairs applied), still rewrites `last_refresh` to `T1`. -/
theorem mergeUpdate_sets_last_refresh_witness :
    (⟨⟨[("EUR_USD", ⟨2, "T5", "s"⟩)], some "T1"⟩, 0, none⟩ :
        UpdateResult).cache.last_refresh = some "T1" :=
  mergeUpdate_sets_last_refresh [("EUR_USD", 7)] "x" "T1"
    ⟨[("EUR_USD", ⟨2, "T5", "s"⟩)], some "T5"⟩
    ⟨⟨[("EUR_USD", ⟨2, "T5", "s"⟩)], some "T1"⟩, 0, none⟩ (by rfl)

/-! ## C3: the applied-pairs counter and the return value -/

/-- The freshness test of `update_rates_cache` expressed against a fixed
pair table: a pair key passes when the table has no entry for it, or the
entry's `updated_at` is strictly older than the incoming timestamp. -/
def freshPair (pairs0 : List (String × CacheEntry)) (t : String) (k : String) : Bool :=
  match lookupKey pairs0 k with
  | some entry => decide (entry.updated_at.data < t.data)
  | none => true

theorem updateLoop_count (src t : String) (rs : List (String × Rat))
    (ps ps0 : List (String × CacheEntry)) (cnt : Nat)
    (res : List (String × CacheEntry) × Nat)
    (hnd : (rs.map Prod.fst).Nodup)
    (hagree : ∀ k ∈ rs.map Prod.fst, lookupKey ps k = lookupKey ps0 k)
    (h : updateLoop src t rs ps cnt = .ok res) :
    res.2 = cnt + (rs.filter (fun pr => freshPair ps0 t pr.1)).length := by
  induction rs generalizing ps cnt with
  | nil =>
    simp [updateLoop] at h
    simp [← h]
  | cons hd rest ih =>
    obtain ⟨k, r⟩ := hd
    have hk0 : lookupKey ps k = lookupKey ps0 k := hagree k (by simp)
    have hnd' : (rest.map Prod.fst).Nodup := (List.nodup_cons.mp hnd).2
    have hknotin : k ∉ rest.map Prod.fst := (List.nodup_cons.mp hnd).1
    cases hp : parse_pair k with
    | error e => simp [updateLoop, hp] at h
    | ok pr =>
      cases hl : lookupKey ps k with
      | some cached =>
        by_cases ht : t.data ≤ cached.updated_at.data
        · have hfresh : freshPair ps0 t k = false := by
            simp [freshPair, ← hk0, hl, not_lt.mpr ht]
          have hrec : updateLoop src t rest ps cnt = .ok res := by
            simpa [updateLoop, hp, hl, ht] using h
          have := ih ps cnt hnd'
            (fun k' hk' => hagree k' (List.mem_cons_of_mem _ hk')) hrec
          simpa [hfresh] using this
        · have hfresh : freshPair ps0 t k = true := by
            simp [freshPair, ← hk0, hl, not_le.mp ht]
          have hrec : updateLoop src t rest
              (setKey ps k ⟨r, t, src⟩) (cnt + 1) = .ok res := by
            simpa [updateLoop, hp, hl, ht] using h
          have hagree' : ∀ k' ∈ rest.map Prod.fst,
              lookupKey (setKey ps k ⟨r, t, src⟩) k' = lookupKey ps0 k' := by
            intro k' hk'
            have hne : k' ≠ k := fun hkk => hknotin (hkk ▸ hk')
            rw [lookup_setKey_ne ps k k' _ hne]
            exact hagree k' (List.mem_cons_of_mem _ hk')
          have := ih (setKey ps k ⟨r, t, src⟩) (cnt + 1) hnd' hagree' hrec
          simp [hfresh, this]
          omega
      | none =>
        have hfresh : freshPair ps0 t k = true := by
          simp [freshPair, ← hk0, hl]
        have hrec : updateLoop src t rest
            (setKey ps k ⟨r, t, src⟩) (cnt + 1) = .ok res := by
          simpa [updateLoop, hp, hl] using h
        have hagree' : ∀ k' ∈ rest.map Prod.fst,
            lookupKey (setKey ps k ⟨r, t, src⟩) k' = lookupKey ps0 k' := by
          intro k' hk'
          have hne : k' ≠ k := fun hkk => hknotin (hkk ▸ hk')
          rw [lookup_setKey_ne ps k k' _ hne]
          exact hagree k' (List.mem_cons_of_mem _ hk')
        have := ih (setKey ps k ⟨r, t, src⟩) (cnt + 1) hnd' hagree' hrec
        simp [hfresh, this]
        omega

/-- C3 (counterexample): `update_rates_cache` does not return the count of
pairs actually applied — the Python function has no return statement.  On a
call that applies exactly one pair the internal counter is `1` while the
value returned to the caller is `None`. -/
theorem mergeUpdate_return_value_cex :
    update_rates_cache [("EUR_USD", 2)] "s" "T1" ⟨[], none⟩ =
      .ok ⟨⟨[("EUR_USD", ⟨2, "T1", "s"⟩)], some "T1"⟩, 1, none⟩
    ∧ (⟨⟨[("EUR_USD", ⟨2, "T1", "s"⟩)], some "T1"⟩, 1, none⟩ :
        UpdateResult).ret ≠
      some (⟨⟨[("EUR_USD", ⟨2, "T1", "s"⟩)], some "T1"⟩, 1, none⟩ :
        UpdateResult).updated_count :=
  ⟨by rfl, by decide⟩

/-- C3 (amended): `update_rates_cache` computes the number of pairs
actually applied (overwritten rather than skipped by the freshness check)
in a local counter which it only logs; the value returned to the caller is
`None`.  For an input dict (distinct keys) the counter equals the number of
incoming pairs that pass the freshness check against the pre-call cache. -/
theorem mergeUpdate_applied_count (rates : List (String × Rat)) (src t : String)
    (cache : RatesCache) (res : UpdateResult)
    (hnd : (rates.map Prod.fst).Nodup)
    (h : update_rates_cache rates src t cache = .ok res) :
    res.ret = none ∧
    res.updated_count =
      (rates.filter (fun pr => freshPair cache.pairs t pr.1)).length := by
  cases hl : updateLoop src t rates cache.pairs 0 with
  | error e => simp [update_rates_cache, hl] at h
  | ok pc =>
    obtain ⟨ps, cnt⟩ := pc
    simp [update_rates_cache, hl] at h
    subst h
    refine ⟨rfl, ?_⟩
    have := updateLoop_count src t rates cache.pairs cache.pairs 0 (ps, cnt)
      hnd (fun _ _ => rfl) hl
    simpa using this

/-- C3 (witness): the amended theorem at a concrete call: of two incoming
pairs with distinct keys, one is skipped (stored `T9` is fresher than `T1`)
and one applied, so the counter is `1` and the returned value is `None`. -/
theorem mergeUpdate_applied_count_witness :
    (⟨⟨[("EUR_USD", ⟨5, "T9", "old"⟩), ("GBP_USD", ⟨3, "T1", "x"⟩)], some "T1"⟩,
        1, none⟩ : UpdateResult).ret = none
    ∧ (⟨⟨[("EUR_USD", ⟨5, "T9", "old"⟩), ("GBP_USD", ⟨3, "T1", "x"⟩)], some "T1"⟩,
        1, none⟩ : UpdateResult).updated_count =
      ([(("EUR_USD", (2 : Rat))), ("GBP_USD", 3)].filter
        (fun pr => freshPair [("EUR_USD", ⟨5, "T9", "old"⟩)] "T1" pr.1)).length :=
  mergeUpdate_applied_count [("EUR_USD", 2), ("GBP_USD", 3)] "x" "T1"
    ⟨[("EUR_USD", ⟨5, "T9", "old"⟩)], some "T9"⟩
    ⟨⟨[("EUR_USD", ⟨5, "T9", "old"⟩), ("GBP_USD", ⟨3, "T1", "x"⟩)], some "T1"⟩,
      1, none⟩ (by decide) (by rfl)

/-! ## C9: pair-key validation of `update_rates_cache` -/

/-- The pair-key format in the claim's own words: a currency code is
uppercase alphabetic of length 2 to 5.  (Definition follows the claim text,
for comparison with the code's `validate_currency_code`.) -/
def claimedValidCode (s : String) : Bool :=
  decide (2 ≤ s.data.length) && decide (s.data.length ≤ 5) &&
    s.data.all (fun c => decide ('A' ≤ c) && decide (c ≤ 'Z'))

/-- The pair-key format in the claim's own words: exactly two
underscore-separated uppercase alphabetic currency codes of length 2 to 5. -/
def claimedValidPair (s : String) : Bool :=
  match (splitUnderscore s.data).map String.mk with
  | [a, b] => claimedValidCode a && claimedValidCode b
  | _ => false

/-- A currency code whose final character is a newline and whose remaining
characters form a claimed-valid code: accepted by the source's regex
because the end anchor also matches before one trailing newline. -/
def trailingNewlineCode (s : String) : Bool :=
  s.data.getLast? == some (Char.ofNat 10) && claimedValidCode (String.mk s.data.dropLast)

/-- A pair key accepted by the source: each of the two underscore-separated
parts is claimed-valid or claimed-valid up to one trailing newline. -/
def relaxedValidPair (s : String) : Bool :=
  match (splitUnderscore s.data).map String.mk with
  | [a, b] =>
    (claimedValidCode a || trailingNewlineCode a) &&
      (claimedValidCode b || trailingNewlineCode b)
  | _ => false

theorem validate_eq_relaxed (s : String) :
    validate_currency_code s = (claimedValidCode s || trailingNewlineCode s) := rfl

theorem parse_pair_error_shape (s : String) (h : (parse_pair s).isOk = false) :
    ∃ m, parse_pair s = .error (.valueError m) := by
  unfold parse_pair at h ⊢
  cases hs : (splitUnderscore s.data).map String.mk with
  | nil => exact ⟨_, rfl⟩
  | cons a tl =>
    cases tl with
    | nil => exact ⟨_, rfl⟩
    | cons b tl2 =>
      cases tl2 with
      | nil =>
        rw [hs] at h
        by_cases ha : validate_currency_code a
        · by_cases hb : validate_currency_code b
          · simp [ha, hb, Except.isOk, Except.toBool] at h
          · exact ⟨"Invalid TO currency in pair: " ++ b, by simp [ha, hb]⟩
        · exact ⟨"Invalid FROM currency in pair: " ++ a, by simp [ha]⟩
      | cons c tl3 => exact ⟨_, rfl⟩

theorem updateLoop_ok_of_valid (src t : String) (rs : List (String × Rat))
    (ps : List (String × CacheEntry)) (cnt : Nat)
    (hv : ∀ pr ∈ rs, (parse_pair pr.1).isOk = true) :
    ∃ out, updateLoop src t rs ps cnt = .ok out := by
  induction rs generalizing ps cnt with
  | nil => exact ⟨(ps, cnt), rfl⟩
  | cons hd rest ih =>
    obtain ⟨k, r⟩ := hd
    have hk := hv (k, r) (by simp)
    cases hp : parse_pair k with
    | error e => simp [hp, Except.isOk, Except.toBool] at hk
    | ok pr =>
      have hrest : ∀ pr ∈ rest, (parse_pair pr.1).isOk = true :=
        fun q hq => hv q (List.mem_cons_of_mem _ hq)
      cases hl : lookupKey ps k with
      | some cached =>
        by_cases ht : t.data ≤ cached.updated_at.data
        · obtain ⟨out, hout⟩ := ih ps cnt hrest
          exact ⟨out, by simpa [updateLoop, hp, hl, ht] using hout⟩
        · obtain ⟨out, hout⟩ := ih (setKey ps k ⟨r, t, src⟩) (cnt + 1) hrest
          exact ⟨out, by simpa [updateLoop, hp, hl, ht] using hout⟩
      | none =>
        obtain ⟨out, hout⟩ := ih (setKey ps k ⟨r, t, src⟩) (cnt + 1) hrest
        exact ⟨out, by simpa [updateLoop, hp, hl] using hout⟩

theorem updateLoop_error_of_invalid (src t : String) (rs : List (String × Rat))
    (ps : List (String × CacheEntry)) (cnt : Nat) (pr : String × Rat)
    (hmem : pr ∈ rs) (hbad : (parse_pair pr.1).isOk = false) :
    ∃ m, updateLoop src t rs ps cnt = .error (.valueError m) := by
  induction rs generalizing ps cnt with
  | nil => cases hmem
  | cons hd rest ih =>
    obtain ⟨k, r⟩ := hd
    cases hp : parse_pair k with
    | error e =>
      obtain ⟨m, hm⟩ := parse_pair_error_shape k (by simp [hp, Except.isOk, Except.toBool])
      rw [hp] at hm
      cases hm
      exact ⟨m, by simp [updateLoop, hp]⟩
    | ok v =>
      have hmem' : pr ∈ rest := by
        rcases List.mem_cons.mp hmem with h | h
        · subst h; simp [hp, Except.isOk, Except.toBool] at hbad
        · exact h
      cases hl : lookupKey ps k with
      | some cached =>
        by_cases ht : t.data ≤ cached.updated_at.data
        · obtain ⟨m, hm⟩ := ih ps cnt hmem'
          exact ⟨m, by simpa [updateLoop, hp, hl, ht] using hm⟩
        · obtain ⟨m, hm⟩ := ih (setKey ps k ⟨r, t, src⟩) (cnt + 1) hmem'
          exact ⟨m, by simpa [updateLoop, hp, hl, ht] using hm⟩
      | none =>
        obtain ⟨m, hm⟩ := ih (setKey ps k ⟨r, t, src⟩) (cnt + 1) hmem'
        exact ⟨m, by simpa [updateLoop, hp, hl] using hm⟩

/-- C9 (counterexample): the key `"AB_CD\n"` is *not* two
underscore-separated uppercase alphabetic codes of length 2 to 5 (its
second part carries a newline), yet `update_rates_cache` raises nothing and
persists the entry: the source's regex end anchor accepts one trailing
newline. -/
theorem mergeUpdate_validation_cex :
    claimedValidPair "AB_CD\n" = false
    ∧ update_rates_cache [("AB_CD\n", 1)] "s" "T1" ⟨[], none⟩ =
        .ok ⟨⟨[("AB_CD\n", ⟨1, "T1", "s"⟩)], some "T1"⟩, 1, none⟩ :=
  ⟨by decide, by rfl⟩

/-- C9 (amended): `update_rates_cache` validates every incoming key with
the pattern of `validate_currency_code` on both underscore-separated parts,
where each part may additionally carry one trailing newline (an artifact of
the regex end anchor).  (1) If every key passes, the call succeeds; (2) if
any key fails, the call raises `ValueError`, and since the write to disk
happens only after the whole loop, nothing from the call — including valid
pairs processed before the invalid one — is persisted; (3) a key passes
exactly when both parts are claimed-valid codes up to one trailing
newline. -/
theorem mergeUpdate_validation :
    (∀ rates (src t : String) cache, (∀ pr ∈ rates, (parse_pair pr.1).isOk = true) →
      (update_rates_cache rates src t cache).isOk = true)
    ∧ (∀ rates (src t : String) cache pr, pr ∈ rates →
        (parse_pair pr.1).isOk = false →
        ∃ m, update_rates_cache rates src t cache = .error (.valueError m))
    ∧ (∀ s, (parse_pair s).isOk = relaxedValidPair s) := by
  refine ⟨?_, ?_, ?_⟩
  · intro rates src t cache hv
    obtain ⟨⟨ps, cnt⟩, hout⟩ := updateLoop_ok_of_valid src t rates cache.pairs 0 hv
    simp [update_rates_cache, hout, Except.isOk, Except.toBool]
  · intro rates src t cache pr hmem hbad
    obtain ⟨m, hm⟩ := updateLoop_error_of_invalid src t rates cache.pairs 0 pr hmem hbad
    exact ⟨m, by simp [update_rates_cache, hm]⟩
  · intro s
    unfold parse_pair relaxedValidPair
    cases hs : (splitUnderscore s.data).map String.mk with
    | nil => rfl
    | cons a tl =>
      cases tl with
      | nil => rfl
      | cons b tl2 =>
        cases tl2 with
        | nil =>
          by_cases ha : validate_currency_code a
          · by_cases hb : validate_currency_code b
            · simp [ha, hb, Except.isOk, Except.toBool, ← validate_eq_relaxed]
            · simp [ha, hb, Except.isOk, Except.toBool, ← validate_eq_relaxed]
          · simp [ha, Except.isOk, Except.toBool, ← validate_eq_relaxed]
        | cons c tl3 => rfl

/-- C9 (witness): the amended theorem at concrete inputs: a call whose keys
are all valid succeeds; the all-uppercase key `EUR_USD` passes the
relaxed format test exactly as `parse_pair` does. -/
theorem mergeUpdate_validation_witness :
    (update_rates_cache [("EUR_USD", 2), ("BTC_USD", 3)] "s" "T1"
        ⟨[], none⟩).isOk = true
    ∧ (parse_pair "EUR_USD").isOk = relaxedValidPair "EUR_USD" :=
  ⟨mergeUpdate_validation.1 [("EUR_USD", 2), ("BTC_USD", 3)] "s" "T1"
      ⟨[], none⟩ (by decide),
   mergeUpdate_validation.2.2 "EUR_USD"⟩

/-! ## JSON values and the storage readers (C6, C7) -/

/-- A parsed JSON value: the possible results of `json.load`. -/
inductive JsonVal where
  | null
  | bool (b : Bool)
  | num (q : Rat)
  | str (s : String)
  | arr (xs : List JsonVal)
  | obj (fields : List (String × JsonVal))

/-- Python substring test `needle in haystack` on strings (the empty needle
is contained in every string). -/
def containsSub (needle : List Char) : List Char → Bool
  | [] => needle.isEmpty
  | c :: t => needle.isPrefixOf (c :: t) || containsSub needle t

/-- Python `==` between a string and a JSON value: only a JSON string can
compare equal to a string. -/
def jsonStrEq (needle : String) : JsonVal → Bool
  | .str s => s == needle
  | _ => false

/-- Python membership `needle in v` for a string needle: key test on a
dict, element test on a list, substring test on a string; a number, boolean
or `None` raises `TypeError` (uncaught by the storage readers). -/
def pyIn (needle : String) : JsonVal → Except PyError Bool
  | .obj fields => .ok (lookupKey fields needle).isSome
  | .arr xs => .ok (xs.any (jsonStrEq needle))
  | .str s => .ok (containsSub needle.data s.data)
  | .null => .error (.typeError "argument of type NoneType is not iterable")
  | .bool _ => .error (.typeError "argument of type bool is not iterable")
  | .num _ => .error (.typeError "argument of type number is not iterable")

/-- Python `float(x)` as the storage readers use it: numbers convert,
booleans convert to 0 or 1, `None`, lists and dicts raise `TypeError`.
Strings are mapped to `ValueError`; Python would parse a numeric literal
string, but no modelled input feeds a string rate into `float`. -/
def pyFloat : JsonVal → Except PyError Rat
  | .num q => .ok q
  | .bool b => .ok (if b then 1 else 0)
  | .str s => .error (.valueError ("could not convert string to float: " ++ s))
  | .null => .error (.typeError "float() argument cannot be NoneType")
  | .arr _ => .error (.typeError "float() argument cannot be a list")
  | .obj _ => .error (.typeError "float() argument cannot be a dict")

/-- State of a backing JSON file: absent, present with undecodable bytes
(`json.JSONDecodeError` with the given message), or present with a decoded
value. -/
inductive FileState where
  | absent
  | invalidJson (msg : String)
  | content (v : JsonVal)

/-- `read_exchange_rates_history` (storage.py): absent file gives the empty
default structure; undecodable JSON gives `StorageError`; a non-dict value
gives `StorageError`; a dict without the `history` key is repaired
in-memory.  The second component is the backing file after the call — the
function never writes. -/
def read_exchange_rates_history (fs : FileState) : Except PyError JsonVal × FileState :=
  match fs with
  | .absent => (.ok (.obj [("history", .arr []), ("last_updated", .null)]), fs)
  | .invalidJson msg =>
    (.error (.storageError ("Invalid JSON in history file: " ++ msg)), fs)
  | .content (.obj fields) =>
    (if (lookupKey fields "history").isSome then .ok (.obj fields)
     else .ok (.obj (setKey fields "history" (.arr []))), fs)
  | .content _ =>
    (.error (.storageError "Invalid history file format: expected dict"), fs)

/-- One migrated cache entry built by the legacy branch of
`read_rates_cache`. -/
def migrateEntry (uT : JsonVal) (q : Rat) : JsonVal :=
  .obj [("rate", .num q), ("updated_at", uT), ("source", .str "migrated")]

/-- The `for currency, rate in old_rates.items()` loop of the legacy
migration: every currency other than the base becomes the pair
`{currency}_{base}`. -/
def migrateLoop (base : String) (uT : JsonVal) :
    List (String × JsonVal) → List (String × JsonVal) →
    Except PyError (List (String × JsonVal))
  | [], acc => .ok acc
  | (currency, rate) :: rest, acc =>
    if currency = base then migrateLoop base uT rest acc
    else
      match pyFloat rate with
      | .error e => .error e
      | .ok q =>
        migrateLoop base uT rest
          (setKey acc (currency ++ "_" ++ base) (migrateEntry uT q))

/-- `data.get("base_currency", "USD")` as used inside an f-string.  A
non-string value is a modelling limit (Python would stringify it); no
modelled input carries one. -/
def getBaseCurrency (fields : List (String × JsonVal)) : Except PyError String :=
  match lookupKey fields "base_currency" with
  | none => .ok "USD"
  | some (.str s) => .ok s
  | some _ => .error (.typeError "modelling limit: non-string base_currency")

/-- The legacy-migration branch of `read_rates_cache`: rebuild the data as
`{"pairs": ..., "last_refresh": ...}` from the flat `rates` map.  A
non-dict `rates` value raises `AttributeError` (`.items()` missing). -/
def doMigration (now : String) (fields : List (String × JsonVal)) :
    Except PyError JsonVal :=
  match (lookupKey fields "rates").getD (.obj []) with
  | .obj oldRates =>
    match getBaseCurrency fields with
    | .error e => .error e
    | .ok base =>
      match migrateLoop base ((lookupKey fields "updated_at").getD (.str now))
          oldRates [] with
      | .error e => .error e
      | .ok pairs =>
        .ok (.obj [("pairs", .obj pairs),
          ("last_refresh", (lookupKey fields "updated_at").getD (.str now))])
  | _ => .error (.attrError "rates value has no attribute items")

/-- The structure validation at the end of `read_rates_cache`: a non-dict
is `StorageError`, a dict without `pairs` is repaired in-memory. -/
def structureCheck (data : JsonVal) : Except PyError JsonVal :=
  match data with
  | .obj fields =>
    if (lookupKey fields "pairs").isSome then .ok (.obj fields)
    else .ok (.obj (setKey fields "pairs" (.obj [])))
  | _ => .error (.storageError "Invalid cache file format: expected dict")

/-- Body of `read_rates_cache` on decoded content: the legacy branch runs
when `"rates" in data and "pairs" not in data` (note both membership tests
run *before* the `isinstance` structure check). -/
def readRatesBody (now : String) (data : JsonVal) : Except PyError JsonVal :=
  match pyIn "rates" data with
  | .error e => .error e
  | .ok false => structureCheck data
  | .ok true =>
    match pyIn "pairs" data with
    | .error e => .error e
    | .ok true => structureCheck data
    | .ok false =>
      match data with
      | .obj fields =>
        match doMigration now fields with
        | .error e => .error e
        | .ok migrated => structureCheck migrated
      | _ => .error (.attrError "object has no attribute get")

/-- `read_rates_cache` (storage.py).  `now` is the current-time string used
as default when the legacy content has no `updated_at`.  The second
component is the backing file after the call — the function never
writes. -/
def read_rates_cache (now : String) (fs : FileState) :
    Except PyError JsonVal × FileState :=
  match fs with
  | .absent => (.ok (.obj [("pairs", .obj []), ("last_refresh", .null)]), fs)
  | .invalidJson msg =>
    (.error (.storageError ("Invalid JSON in cache file: " ++ msg)), fs)
  | .content data => (readRatesBody now data, fs)

/-- The `pairs` table of a reader result, when the result is a dict with a
dict-valued `pairs` key. -/
def resultPairs (r : Except PyError JsonVal) : Option (List (String × JsonVal)) :=
  match r with
  | .ok (.obj fields) =>
    match lookupKey fields "pairs" with
    | some (.obj P) => some P
    | _ => none
  | _ => none

/-- The `last_refresh` value of a reader result. -/
def resultLastRefresh (r : Except PyError JsonVal) : Option JsonVal :=
  match r with
  | .ok (.obj fields) => lookupKey fields "last_refresh"
  | _ => none

theorem mem_setKey {α : Type} (l : List (String × α)) (k0 : String) (v0 : α)
    (k : String) (v : α) (h : (k, v) ∈ setKey l k0 v0) :
    (k, v) ∈ l ∨ (k = k0 ∧ v = v0) := by
  induction l with
  | nil =>
    simp [setKey] at h
    exact Or.inr h
  | cons hd tl ih =>
    obtain ⟨k1, v1⟩ := hd
    by_cases hk : k1 = k0
    · subst hk
      simp [setKey] at h
      rcases h with ⟨rfl, rfl⟩ | h
      · exact Or.inr ⟨rfl, rfl⟩
      · exact Or.inl (List.mem_cons_of_mem _ h)
    · simp [setKey, hk] at h
      rcases h with ⟨rfl, rfl⟩ | h
      · exact Or.inl (by simp)
      · rcases ih h with h' | h'
        · exact Or.inl (List.mem_cons_of_mem _ h')
        · exact Or.inr h'

theorem append_right_cancel_str {a b s : String} (h : a ++ s = b ++ s) : a = b := by
  have hd : a.data ++ s.data = b.data ++ s.data := by
    simpa [String.data_append] using congrArg String.data h
  exact congrArg String.mk (List.append_cancel_right hd)

theorem pairKey_inj {c c' base : String}
    (h : c ++ "_" ++ base = c' ++ "_" ++ base) : c = c' :=
  append_right_cancel_str (append_right_cancel_str h)

theorem migrateLoop_ok (base : String) (uT : JsonVal)
    (rs acc : List (String × JsonVal))
    (hv : ∀ p ∈ rs, ∃ q, p.2 = JsonVal.num q) :
    ∃ P, migrateLoop base uT rs acc = .ok P := by
  induction rs generalizing acc with
  | nil => exact ⟨acc, rfl⟩
  | cons hd rest ih =>
    obtain ⟨c0, w0⟩ := hd
    obtain ⟨q0, hq0⟩ := hv (c0, w0) (by simp)
    simp only at hq0
    subst hq0
    have hv' : ∀ p ∈ rest, ∃ q, p.2 = JsonVal.num q :=
      fun p hp => hv p (List.mem_cons_of_mem _ hp)
    by_cases hb : c0 = base
    · obtain ⟨P, hP⟩ := ih acc hv'
      exact ⟨P, by simpa [migrateLoop, hb] using hP⟩
    · obtain ⟨P, hP⟩ := ih (setKey acc (c0 ++ "_" ++ base) (migrateEntry uT q0)) hv'
      exact ⟨P, by simpa [migrateLoop, hb, pyFloat] using hP⟩

theorem migrateLoop_preserved (base : String) (uT : JsonVal)
    (rs acc P : List (String × JsonVal))
    (h : migrateLoop base uT rs acc = .ok P) (k : String)
    (hk : ∀ c ∈ rs.map Prod.fst, c ≠ base → k ≠ c ++ "_" ++ base) :
    lookupKey P k = lookupKey acc k := by
  induction rs generalizing acc with
  | nil =>
    simp [migrateLoop] at h
    subst h
    rfl
  | cons hd rest ih =>
    obtain ⟨c0, w0⟩ := hd
    have hk' : ∀ c ∈ rest.map Prod.fst, c ≠ base → k ≠ c ++ "_" ++ base :=
      fun c hc => hk c (by simp [hc])
    by_cases hb : c0 = base
    · have h' : migrateLoop base uT rest acc = .ok P := by
        simpa [migrateLoop, hb] using h
      exact ih acc h' hk'
    · cases hf : pyFloat w0 with
      | error e => simp [migrateLoop, hb, hf] at h
      | ok q0 =>
        have h' : migrateLoop base uT rest
            (setKey acc (c0 ++ "_" ++ base) (migrateEntry uT q0)) = .ok P := by
          simpa [migrateLoop, hb, hf] using h
        have hkne : k ≠ c0 ++ "_" ++ base := hk c0 (by simp) hb
        rw [ih _ h' hk', lookup_setKey_ne _ _ _ _ hkne]

theorem migrateLoop_found (base : String) (uT : JsonVal)
    (rs acc P : List (String × JsonVal))
    (h : migrateLoop base uT rs acc = .ok P)
    (hnd : (rs.map Prod.fst).Nodup) (c : String) (q : Rat)
    (hc : (c, JsonVal.num q) ∈ rs) (hcb : c ≠ base) :
    lookupKey P (c ++ "_" ++ base) = some (migrateEntry uT q) := by
  induction rs generalizing acc with
  | nil => cases hc
  | cons hd rest ih =>
    obtain ⟨c0, w0⟩ := hd
    rcases List.mem_cons.mp hc with heq | hc'
    · cases heq
      have h' : migrateLoop base uT rest
          (setKey acc (c ++ "_" ++ base) (migrateEntry uT q)) = .ok P := by
        simpa [migrateLoop, hcb, pyFloat] using h
      have hnotin : c ∉ rest.map Prod.fst := by
        rw [List.map_cons] at hnd
        exact (List.nodup_cons.mp hnd).1
      have hpres := migrateLoop_preserved base uT rest _ P h' (c ++ "_" ++ base)
        (fun c' hc'mem hc'b heqkey => hnotin ((pairKey_inj heqkey) ▸ hc'mem))
      rw [hpres, lookup_setKey_self]
    · have hnd' : (rest.map Prod.fst).Nodup := by
        rw [List.map_cons] at hnd
        exact (List.nodup_cons.mp hnd).2
      by_cases hb : c0 = base
      · have h' : migrateLoop base uT rest acc = .ok P := by
          simpa [migrateLoop, hb] using h
        exact ih _ h' hnd' hc'
      · cases hf : pyFloat w0 with
        | error e => simp [migrateLoop, hb, hf] at h
        | ok q0 =>
          have h' : migrateLoop base uT rest
              (setKey acc (c0 ++ "_" ++ base) (migrateEntry uT q0)) = .ok P := by
            simpa [migrateLoop, hb, hf] using h
          exact ih _ h' hnd' hc'

theorem migrateLoop_mem (base : String) (uT : JsonVal)
    (rs acc P : List (String × JsonVal))
    (h : migrateLoop base uT rs acc = .ok P)
    (hv : ∀ p ∈ rs, ∃ q, p.2 = JsonVal.num q) :
    ∀ k v, (k, v) ∈ P → (k, v) ∈ acc ∨
      ∃ c q, (c, JsonVal.num q) ∈ rs ∧ c ≠ base ∧ k = c ++ "_" ++ base ∧
        v = migrateEntry uT q := by
  induction rs generalizing acc with
  | nil =>
    intro k v hkv
    simp [migrateLoop] at h
    subst h
    exact Or.inl hkv
  | cons hd rest ih =>
    obtain ⟨c0, w0⟩ := hd
    obtain ⟨q0, hq0⟩ := hv (c0, w0) (by simp)
    simp only at hq0
    subst hq0
    have hv' : ∀ p ∈ rest, ∃ q, p.2 = JsonVal.num q :=
      fun p hp => hv p (List.mem_cons_of_mem _ hp)
    intro k v hkv
    by_cases hb : c0 = base
    · have h' : migrateLoop base uT rest acc = .ok P := by
        simpa [migrateLoop, hb] using h
      rcases ih acc h' hv' k v hkv with hin | ⟨c, q, hmem, hcb, hkk, hvv⟩
      · exact Or.inl hin
      · exact Or.inr ⟨c, q, List.mem_cons_of_mem _ hmem, hcb, hkk, hvv⟩
    · have h' : migrateLoop base uT rest
          (setKey acc (c0 ++ "_" ++ base) (migrateEntry uT q0)) = .ok P := by
        simpa [migrateLoop, hb, pyFloat] using h
      rcases ih _ h' hv' k v hkv with hin | ⟨c, q, hmem, hcb, hkk, hvv⟩
      · rcases mem_setKey _ _ _ _ _ hin with hin2 | ⟨rfl, rfl⟩
        · exact Or.inl hin2
        · exact Or.inr ⟨c0, q0, by simp, hb, rfl, rfl⟩
      · exact Or.inr ⟨c, q, List.mem_cons_of_mem _ hmem, hcb, hkk, hvv⟩

/-- C6: feeding the legacy flat-rate shape
`{"rates": {code: rate}, "base_currency": B, "updated_at": T}` into
`read_rates_cache` yields a canonical snapshot: the file is not written
back; `last_refresh = T`; the `pairs` table exists, maps each non-base
currency `c` with rate `q` to the entry
`{"rate": q, "updated_at": T, "source": "migrated"}` under key `c_B`, and
contains nothing else — in particular nothing for the base currency. -/
theorem legacy_migration_readSnapshot (now T B : String)
    (fields rs : List (String × JsonVal))
    (hrates : lookupKey fields "rates" = some (.obj rs))
    (hnopairs : lookupKey fields "pairs" = none)
    (hbase : lookupKey fields "base_currency" = some (.str B))
    (hupd : lookupKey fields "updated_at" = some (.str T))
    (hv : ∀ p ∈ rs, ∃ q, p.2 = JsonVal.num q)
    (hnd : (rs.map Prod.fst).Nodup) :
    (read_rates_cache now (.content (.obj fields))).2 = .content (.obj fields)
    ∧ resultLastRefresh (read_rates_cache now (.content (.obj fields))).1 =
        some (.str T)
    ∧ (resultPairs (read_rates_cache now (.content (.obj fields))).1).isSome = true
    ∧ (∀ P, resultPairs (read_rates_cache now (.content (.obj fields))).1 = some P →
        (∀ c q, (c, JsonVal.num q) ∈ rs → c ≠ B →
          lookupKey P (c ++ "_" ++ B) = some (migrateEntry (.str T) q))
        ∧ (∀ k v, (k, v) ∈ P →
            ∃ c q, (c, JsonVal.num q) ∈ rs ∧ c ≠ B ∧ k = c ++ "_" ++ B ∧
              v = migrateEntry (.str T) q)) := by
  obtain ⟨P0, hP0⟩ := migrateLoop_ok B (.str T) rs [] hv
  have hread : read_rates_cache now (.content (.obj fields)) =
      (.ok (.obj [("pairs", .obj P0), ("last_refresh", .str T)]),
        .content (.obj fields)) := by
    simp [read_rates_cache, readRatesBody, pyIn, hrates, hnopairs, doMigration,
      getBaseCurrency, hbase, hupd, hP0, structureCheck, lookupKey]
  refine ⟨by rw [hread], by rw [hread]; rfl, by rw [hread]; rfl, ?_⟩
  intro P hP
  rw [hread] at hP
  simp [resultPairs, lookupKey] at hP
  subst hP
  constructor
  · intro c q hc hcb
    exact migrateLoop_found B (.str T) rs [] P0 hP0 hnd c q hc hcb
  · intro k v hkv
    rcases migrateLoop_mem B (.str T) rs [] P0 hP0 hv k v hkv with hin | hgood
    · cases hin
    · exact hgood

/-- C6 (witness): the theorem at a concrete legacy file
`{"rates": {"EUR": 2, "USD": 1}, "base_currency": "USD",
"updated_at": "T7"}`: `EUR` becomes `EUR_USD` with rate 2, timestamp `T7`
and source `migrated`. -/
theorem legacy_migration_readSnapshot_witness :
    resultLastRefresh (read_rates_cache "NOW"
      (.content (.obj [("rates", .obj [("EUR", .num 2), ("USD", .num 1)]),
        ("base_currency", .str "USD"), ("updated_at", .str "T7")]))).1 =
      some (.str "T7")
    ∧ lookupKey [("EUR_USD", migrateEntry (.str "T7") 2)] ("EUR" ++ "_" ++ "USD") =
        some (migrateEntry (.str "T7") 2) := by
  have h := legacy_migration_readSnapshot "NOW" "T7" "USD"
    [("rates", .obj [("EUR", .num 2), ("USD", .num 1)]),
      ("base_currency", .str "USD"), ("updated_at", .str "T7")]
    [("EUR", .num 2), ("USD", .num 1)] rfl rfl rfl rfl
    (by
      intro p hp
      rcases List.mem_cons.mp hp with rfl | hp
      · exact ⟨2, rfl⟩
      · rcases List.mem_cons.mp hp with rfl | hp
        · exact ⟨1, rfl⟩
        · cases hp)
    (by decide)
  refine ⟨h.2.1, ?_⟩
  exact (h.2.2.2 [("EUR_USD", migrateEntry (.str "T7") 2)] (by rfl)).1
    "EUR" 2 (List.mem_cons_self _ _) (by decide)

/-- C7 (counterexample): a cache file whose dict is missing the required
`pairs` key is *not* always repaired in-memory to an empty value: the
content `{"rates": {"EUR": 2}}` triggers the legacy migration branch
instead, and the read returns a non-empty `pairs` table built from the
legacy map (here with the reader's current-time string `"NOW"` as
timestamp), not the empty one the claim describes. -/
theorem read_repair_cex :
    read_rates_cache "NOW" (.content (.obj [("rates", .obj [("EUR", .num 2)])])) =
      (.ok (.obj [("pairs", .obj [("EUR_USD",
          .obj [("rate", .num 2), ("updated_at", .str "NOW"),
            ("source", .str "migrated")])]),
        ("last_refresh", .str "NOW")]),
       .content (.obj [("rates", .obj [("EUR", .num 2)])]))
    ∧ (JsonVal.obj [("EUR_USD",
        .obj [("rate", .num 2), ("updated_at", .str "NOW"),
          ("source", .str "migrated")])]) ≠ .obj [] :=
  ⟨by rfl, by simp⟩

/-- C7 (amended): three-way read semantics of both storage readers.
History store (unconditional): (1) absent file returns the empty default;
(2) undecodable JSON fails with `StorageError`; (3) a non-dict value fails
with `StorageError`; (4) a dict missing `history` is repaired in-memory to
an empty list without writing back.  Rates cache: (5) absent file returns
the empty default; (6) undecodable JSON fails with `StorageError`; (7) a
non-dict top-level list or string fails with `StorageError` only when the
`"rates" in data` membership test is applicable and negative; (8) a
top-level number raises an uncaught `TypeError`, not `StorageError`; (9) a
dict missing `pairs` is repaired in-memory to an empty dict without
writing back only when it also lacks the legacy `rates` key (otherwise the
migration branch runs instead). -/
theorem read_three_way_semantics :
    (read_exchange_rates_history .absent =
      (.ok (.obj [("history", .arr []), ("last_updated", .null)]), .absent))
    ∧ (∀ m, read_exchange_rates_history (.invalidJson m) =
        (.error (.storageError ("Invalid JSON in history file: " ++ m)),
          .invalidJson m))
    ∧ (∀ v, (∀ fields, v ≠ .obj fields) →
        read_exchange_rates_history (.content v) =
          (.error (.storageError "Invalid history file format: expected dict"),
            .content v))
    ∧ (∀ fields, lookupKey fields "history" = none →
        read_exchange_rates_history (.content (.obj fields)) =
          (.ok (.obj (setKey fields "history" (.arr []))), .content (.obj fields)))
    ∧ (∀ now, read_rates_cache now .absent =
        (.ok (.obj [("pairs", .obj []), ("last_refresh", .null)]), .absent))
    ∧ (∀ now m, read_rates_cache now (.invalidJson m) =
        (.error (.storageError ("Invalid JSON in cache file: " ++ m)),
          .invalidJson m))
    ∧ (∀ now xs, xs.any (jsonStrEq "rates") = false →
        read_rates_cache now (.content (.arr xs)) =
          (.error (.storageError "Invalid cache file format: expected dict"),
            .content (.arr xs)))
    ∧ (∀ now s, containsSub "rates".data s.data = false →
        read_rates_cache now (.content (.str s)) =
          (.error (.storageError "Invalid cache file format: expected dict"),
            .content (.str s)))
    ∧ (∀ now q, read_rates_cache now (.content (.num q)) =
        (.error (.typeError "argument of type number is not iterable"),
          .content (.num q)))
    ∧ (∀ now fields, lookupKey fields "pairs" = none →
        lookupKey fields "rates" = none →
        read_rates_cache now (.content (.obj fields)) =
          (.ok (.obj (setKey fields "pairs" (.obj []))), .content (.obj fields))) := by
  refine ⟨rfl, fun m => rfl, ?_, ?_, fun now => rfl, fun now m => rfl, ?_, ?_,
    fun now q => rfl, ?_⟩
  · intro v hv
    cases v with
    | null => rfl
    | bool b => rfl
    | num q => rfl
    | str s => rfl
    | arr xs => rfl
    | obj fields => exact absurd rfl (hv fields)
  · intro fields hmiss
    simp [read_exchange_rates_history, hmiss]
  · intro now xs hxs
    simp [read_rates_cache, readRatesBody, pyIn, hxs, structureCheck]
  · intro now s hs
    simp [read_rates_cache, readRatesBody, pyIn, hs, structureCheck]
  · intro now fields hpairs hrates
    simp [read_rates_cache, readRatesBody, pyIn, hpairs, hrates, structureCheck]

/-- C7 (witness): the amended theorem at concrete inputs: an undecodable
history file fails with `StorageError`, and a cache dict with neither
`pairs` nor `rates` is repaired by appending an empty `pairs`. -/
theorem read_three_way_semantics_witness :
    read_exchange_rates_history (.invalidJson "boom") =
      (.error (.storageError ("Invalid JSON in history file: " ++ "boom")),
        .invalidJson "boom")
    ∧ read_rates_cache "NOW" (.content (.obj [("foo", .null)])) =
        (.ok (.obj (setKey [("foo", .null)] "pairs" (.obj []))),
          .content (.obj [("foo", .null)])) :=
  ⟨read_three_way_semantics.2.1 "boom",
   read_three_way_semantics.2.2.2.2.2.2.2.2.2 "NOW" [("foo", .null)] rfl rfl⟩

/-! ## Retry policy: `BaseApiClient._make_request` (C8) -/

/-- Outcome of one `self.session.get(url, timeout=...)` call: a response
with a status code and body text, or one of the exception classes the
`requests` library raises (`Timeout`, `ConnectionError`, any other
`RequestException`); the carried string is the exception's message. -/
inductive AttemptOutcome where
  | status (code : Nat) (text : String)
  | timeout (msg : String)
  | connError (msg : String)
  | reqExc (msg : String)

/-- Result of `_make_request`: the response returned (with the index of the
attempt that obtained it), or the reason of the `ApiRequestError` it
raises. -/
inductive ReqResult where
  | ok (attempt : Nat) (code : Nat) (text : String)
  | apiError (reason : String)

/-- A run of `_make_request`: its result together with every `time.sleep`
duration, in order. -/
structure ReqTrace where
  result : ReqResult
  sleeps : List Rat

/-- Python `str(last_exception)`: `"None"` when no exception was stored. -/
def strOfLastExc : Option String → String
  | none => "None"
  | some m => m

/-- The message of the `ApiRequestError` raised when all attempts are
exhausted. -/
def exhaustMsg (attempts : Nat) (lastExc : Option String) : String :=
  "Не удалось получить данные после " ++ toString attempts ++
    " попыток. Последняя ошибка: " ++ strOfLastExc lastExc

/-- The `for attempt in range(retries)` loop of `_make_request`, with
`fuel` attempts remaining and `attempt` attempts already consumed (so the
configured cap is `attempt + fuel`).  A 200 response returns immediately;
429 sleeps the attempt-scaled delay and retries (the `continue` skips the
bottom-of-loop sleep); any other status raises immediately; a timeout or
connection error stores the exception and falls through to the
bottom-of-loop fixed sleep (skipped on the final attempt); any other
request exception raises immediately.  Exhausted fuel raises with the last
stored exception. -/
def makeRequestFrom (delay : Rat) (env : Nat → AttemptOutcome) :
    Nat → Nat → Option String → ReqTrace
  | 0, attempt, lastExc => ⟨.apiError (exhaustMsg attempt lastExc), []⟩
  | fuel + 1, attempt, lastExc =>
    match env attempt with
    | .status code text =>
      if code = 200 then ⟨.ok attempt code text, []⟩
      else if code = 429 then
        let t := makeRequestFrom delay env fuel (attempt + 1) lastExc
        ⟨t.result, delay * (attempt + 2 : Nat) :: t.sleeps⟩
      else
        ⟨.apiError ("HTTP " ++ toString code ++ ": " ++
          String.mk (text.data.take 200)), []⟩
    | .timeout m =>
      let t := makeRequestFrom delay env fuel (attempt + 1) (some m)
      ⟨t.result, (if 0 < fuel then [delay] else []) ++ t.sleeps⟩
    | .connError m =>
      let t := makeRequestFrom delay env fuel (attempt + 1) (some m)
      ⟨t.result, (if 0 < fuel then [delay] else []) ++ t.sleeps⟩
    | .reqExc m => ⟨.apiError ("Ошибка при обращении к API: " ++ m), []⟩

/-- `_make_request` (api_clients.py) for a resolved attempt cap `retries`
and per-attempt outcomes `env`. -/
def make_request (delay : Rat) (retries : Nat) (env : Nat → AttemptOutcome) : ReqTrace :=
  makeRequestFrom delay env retries 0 none

/-- The transient failure classes the loop retries. -/
def isRetryable : AttemptOutcome → Bool
  | .timeout _ => true
  | .connError _ => true
  | _ => false

/-- The message of a failure outcome (`str` of the stored exception). -/
def causeMsg : AttemptOutcome → String
  | .timeout m => m
  | .connError m => m
  | .reqExc m => m
  | .status _ _ => ""

theorem makeRequestFrom_exhaust (delay : Rat) (env : Nat → AttemptOutcome) :
    ∀ (fuel j : Nat) (lastExc : Option String), 0 < fuel →
    (∀ m, m < fuel → isRetryable (env (j + m)) = true) →
    makeRequestFrom delay env fuel j lastExc =
      ⟨.apiError (exhaustMsg (j + fuel) (some (causeMsg (env (j + fuel - 1))))),
        List.replicate (fuel - 1) delay⟩ := by
  intro fuel
  induction fuel with
  | zero => intro j lastExc h; cases h
  | succ f ih =>
    intro j lastExc _ hr
    have h0 : isRetryable (env j) = true := by simpa using hr 0 (Nat.succ_pos f)
    rcases f.eq_zero_or_pos with rfl | hf
    · cases he : env j with
      | status code text => rw [he] at h0; simp [isRetryable] at h0
      | reqExc m => rw [he] at h0; simp [isRetryable] at h0
      | timeout m =>
        simp [makeRequestFrom, he, exhaustMsg, strOfLastExc, causeMsg]
      | connError m =>
        simp [makeRequestFrom, he, exhaustMsg, strOfLastExc, causeMsg]
    · have hr' : ∀ m, m < f → isRetryable (env ((j + 1) + m)) = true := by
        intro m hm
        have : j + 1 + m = j + (m + 1) := by omega
        rw [this]
        exact hr (m + 1) (by omega)
      have hidx : (j + 1) + f = j + (f + 1) := by omega
      have hrep : List.replicate (f + 1 - 1) delay = delay :: List.replicate (f - 1) delay := by
        have h2 : f + 1 - 1 = (f - 1) + 1 := by omega
        rw [h2, List.replicate_succ]
      cases he : env j with
      | status code text => rw [he] at h0; simp [isRetryable] at h0
      | reqExc m => rw [he] at h0; simp [isRetryable] at h0
      | timeout m =>
        have hres := ih (j + 1) (some m) hf hr'
        rw [hidx] at hres
        simp [makeRequestFrom, he, hres, hf, hrep]
        rw [← List.replicate_succ]
        congr 1
        omega
      | connError m =>
        have hres := ih (j + 1) (some m) hf hr'
        rw [hidx] at hres
        simp [makeRequestFrom, he, hres, hf, hrep]
        rw [← List.replicate_succ]
        congr 1
        omega

theorem makeRequestFrom_success (delay : Rat) (env : Nat → AttemptOutcome) :
    ∀ (i fuel j : Nat) (lastExc : Option String) (text : String), i < fuel →
    (∀ m, m < i → isRetryable (env (j + m)) = true) →
    env (j + i) = .status 200 text →
    (makeRequestFrom delay env fuel j lastExc).result = .ok (j + i) 200 text := by
  intro i
  induction i with
  | zero =>
    intro fuel j lastExc text hfuel _ henv
    cases fuel with
    | zero => exact absurd hfuel (by omega)
    | succ f =>
      simp only [Nat.add_zero] at henv
      simp [makeRequestFrom, henv]
  | succ i ih =>
    intro fuel j lastExc text hfuel hr henv
    cases fuel with
    | zero => exact absurd hfuel (by omega)
    | succ f =>
      have h0 : isRetryable (env j) = true := by simpa using hr 0 (Nat.succ_pos i)
      have hr' : ∀ m, m < i → isRetryable (env ((j + 1) + m)) = true := by
        intro m hm
        have heq : j + 1 + m = j + (m + 1) := by omega
        rw [heq]
        exact hr (m + 1) (by omega)
      have henv' : env ((j + 1) + i) = .status 200 text := by
        have heq : j + 1 + i = j + (i + 1) := by omega
        rw [heq]
        exact henv
      have hfuel' : i < f := by omega
      cases he : env j with
      | status code text2 => rw [he] at h0; simp [isRetryable] at h0
      | reqExc m => rw [he] at h0; simp [isRetryable] at h0
      | timeout m =>
        have hres := ih f (j + 1) (some m) text hfuel' hr' henv'
        have heq2 : j + 1 + i = j + (i + 1) := by omega
        rw [heq2] at hres
        simpa [makeRequestFrom, he] using hres
      | connError m =>
        have hres := ih f (j + 1) (some m) text hfuel' hr' henv'
        have heq2 : j + 1 + i = j + (i + 1) := by omega
        rw [heq2] at hres
        simpa [makeRequestFrom, he] using hres

/-- C8: retry semantics of `_make_request` for every sequence of
per-attempt outcomes.  (1) A 200 response on the first attempt is returned
immediately, with no sleeps; (2) any other non-429 status raises
`ApiRequestError` immediately, with no further attempts and no sleeps;
(3) when every attempt up to the configured cap fails with a timeout or
connection error, the call sleeps the fixed delay between attempts
(`retries - 1` sleeps of `delay`) and then raises `ApiRequestError`
carrying the message of the last underlying exception; (4) a 429 response
consumes one attempt and sleeps the longer, attempt-scaled delay
`delay * (attempt + 2)` before retrying, instead of raising; (5) a 200
response at attempt `i`, after transient failures only, is returned from
attempt `i`; (6) a timeout or connection error on a non-final attempt
stores the exception and sleeps the fixed `delay` before the next
attempt. -/
theorem retry_policy :
    (∀ (delay : Rat) (retries : Nat) env text, 0 < retries →
      env 0 = .status 200 text →
      make_request delay retries env = ⟨.ok 0 200 text, []⟩)
    ∧ (∀ (delay : Rat) (retries : Nat) env code text, 0 < retries →
        env 0 = .status code text → code ≠ 200 → code ≠ 429 →
        make_request delay retries env =
          ⟨.apiError ("HTTP " ++ toString code ++ ": " ++
            String.mk (text.data.take 200)), []⟩)
    ∧ (∀ (delay : Rat) (retries : Nat) env, 0 < retries →
        (∀ m, m < retries → isRetryable (env m) = true) →
        make_request delay retries env =
          ⟨.apiError (exhaustMsg retries (some (causeMsg (env (retries - 1))))),
            List.replicate (retries - 1) delay⟩)
    ∧ (∀ (delay : Rat) env (fuel j : Nat) lastExc text,
        env j = .status 429 text →
        makeRequestFrom delay env (fuel + 1) j lastExc =
          ⟨(makeRequestFrom delay env fuel (j + 1) lastExc).result,
            delay * (j + 2 : Nat) ::
              (makeRequestFrom delay env fuel (j + 1) lastExc).sleeps⟩)
    ∧ (∀ (delay : Rat) (retries : Nat) env i text, i < retries →
        (∀ m, m < i → isRetryable (env m) = true) →
        env i = .status 200 text →
        (make_request delay retries env).result = .ok i 200 text)
    ∧ (∀ (delay : Rat) env (fuel j : Nat) lastExc m,
        (env j = .timeout m ∨ env j = .connError m) → 0 < fuel →
        makeRequestFrom delay env (fuel + 1) j lastExc =
          ⟨(makeRequestFrom delay env fuel (j + 1) (some m)).result,
            delay :: (makeRequestFrom delay env fuel (j + 1) (some m)).sleeps⟩) := by
  refine ⟨?_, ?_, ?_, ?_, ?_, ?_⟩
  · intro delay retries env text hpos henv
    cases retries with
    | zero => exact absurd hpos (by omega)
    | succ f => simp [make_request, makeRequestFrom, henv]
  · intro delay retries env code text hpos henv h200 h429
    cases retries with
    | zero => exact absurd hpos (by omega)
    | succ f => simp [make_request, makeRequestFrom, henv, h200, h429]
  · intro delay retries env hpos hr
    have hr0 : ∀ m, m < retries → isRetryable (env (0 + m)) = true := by
      intro m hm
      simpa using hr m hm
    have := makeRequestFrom_exhaust delay env retries 0 none hpos hr0
    simpa [make_request] using this
  · intro delay env fuel j lastExc text henv
    simp [makeRequestFrom, henv]
  · intro delay retries env i text hlt hr henv
    have hr0 : ∀ m, m < i → isRetryable (env (0 + m)) = true := by
      intro m hm
      simpa using hr m hm
    have := makeRequestFrom_success delay env i retries 0 none text hlt hr0
      (by simpa using henv)
    simpa [make_request] using this
  · intro delay env fuel j lastExc m hm hfuel
    rcases hm with he | he
    · simp [makeRequestFrom, he, hfuel]
    · simp [makeRequestFrom, he, hfuel]

/-- C8 (witness): the retry theorem at concrete runs: an immediate 200; an
immediate 404 failure; exhaustion after two timeouts with one fixed sleep
of 2 between the attempts; and a 429 first attempt sleeping the scaled
delay `2 * (0 + 2)` before retrying. -/
theorem retry_policy_witness :
    make_request 2 3 (fun _ => .status 200 "body") = ⟨.ok 0 200 "body", []⟩
    ∧ make_request 2 3 (fun _ => .status 404 "nf") =
        ⟨.apiError ("HTTP " ++ toString 404 ++ ": " ++
          String.mk ("nf".data.take 200)), []⟩
    ∧ make_request 2 2 (fun _ => .timeout "boom") =
        ⟨.apiError (exhaustMsg 2 (some (causeMsg (.timeout "boom")))),
          List.replicate 1 2⟩
    ∧ makeRequestFrom 2 (fun _ => .status 429 "rl") 2 0 none =
        ⟨(makeRequestFrom 2 (fun _ => .status 429 "rl") 1 1 none).result,
          2 * ((0 : Nat) + 2 : Nat) ::
            (makeRequestFrom 2 (fun _ => .status 429 "rl") 1 1 none).sleeps⟩ :=
  ⟨retry_policy.1 2 3 (fun _ => .status 200 "body") "body" (by omega) rfl,
   retry_policy.2.1 2 3 (fun _ => .status 404 "nf") 404 "nf" (by omega) rfl
     (by omega) (by omega),
   retry_policy.2.2.1 2 2 (fun _ => .timeout "boom") (by omega)
     (fun m _ => rfl),
   retry_policy.2.2.2.1 2 (fun _ => .status 429 "rl") 1 0 none "rl" rfl⟩

/-! ## Fiat source adapter: `ExchangeRateApiClient.fetch_rates` (C4) -/

/-- Python truthiness of a JSON value (`if not conversion_rates`). -/
def pyTruthy : JsonVal → Bool
  | .null => false
  | .bool b => b
  | .num q => decide (q ≠ 0)
  | .str s => !s.data.isEmpty
  | .arr xs => !xs.isEmpty
  | .obj fs => !fs.isEmpty

/-- Python `x == 0` on a JSON value: true exactly for the number `0` and
for `False` (Python booleans are numbers). -/
def pyEqZero : JsonVal → Bool
  | .num q => decide (q = 0)
  | .bool b => !b
  | _ => false

/-- `fiat_to_usd = 1.0 / usd_to_fiat if usd_to_fiat != 0 else 0.0`: a zero
value yields `0.0` instead of dividing; `True` divides to `1.0`; a
non-numeric value raises `TypeError` (uncaught — the surrounding handler
catches only `ValueError`, `KeyError` and `ZeroDivisionError`). -/
def invertRate (v : JsonVal) : Except PyError Rat :=
  if pyEqZero v then .ok 0
  else match v with
    | .num q => .ok (1 / q)
    | .bool _ => .ok 1
    | _ => .error (.typeError "unsupported operand type for /")

/-- Python `conversion_rates[fiat_code]`: value on a dict (`KeyError` when
absent), `TypeError` on any non-dict container. -/
def pyIndex (v : JsonVal) (key : String) : Except PyError JsonVal :=
  match v with
  | .obj fields =>
    match lookupKey fields key with
    | some x => .ok x
    | none => .error (.keyError key)
  | _ => .error (.typeError "value is not subscriptable by a string")

/-- The `for fiat_code in self.config.FIAT_CURRENCIES` loop of the fiat
adapter: skip codes absent from the provider map, otherwise invert the
provider's rate and emit the pair `{fiat_code}_{base}`. -/
def fiatLoop (base : String) (conv : JsonVal) :
    List String → List (String × Rat) → Except PyError (List (String × Rat))
  | [], acc => .ok acc
  | code :: rest, acc =>
    match pyIn code conv with
    | .error e => .error e
    | .ok false => fiatLoop base conv rest acc
    | .ok true =>
      match pyIndex conv code with
      | .error e => .error e
      | .ok v =>
        match invertRate v with
        | .error e => .error e
        | .ok r => fiatLoop base conv rest (setKey acc (code ++ "_" ++ base) r)

/-- The `error-type` reported by the provider on failure (`"unknown"` when
absent; a non-string value is a modelling limit — Python would stringify
it inside the message). -/
def errType (fields : List (String × JsonVal)) : String :=
  match lookupKey fields "error-type" with
  | some (.str s) => s
  | none => "unknown"
  | some _ => "modelling limit: non-string error-type"

/-- `ExchangeRateApiClient.fetch_rates` (api_clients.py) on the parsed JSON
body of a 200 response: check the provider's `result` flag, reject an
empty/falsy `conversion_rates`, then emit `{fiat_code}_{base}` pairs with
inverted rates, and reject an empty result map. -/
def fetch_rates_fiat (fiatCurrencies : List String) (base : String)
    (data : JsonVal) : Except PyError (List (String × Rat)) :=
  match data with
  | .obj fields =>
    if (match lookupKey fields "result" with
        | some (.str s) => s == "success"
        | _ => false) then
      match (lookupKey fields "conversion_rates").getD (.obj []) with
      | conv =>
        if !pyTruthy conv then
          .error (.apiRequestError
            "ExchangeRate-API не вернул курсы (пустой conversion_rates)")
        else
          match fiatLoop base conv fiatCurrencies [] with
          | .error e => .error e
          | .ok rates =>
            if rates.isEmpty then
              .error (.apiRequestError
                "ExchangeRate-API: ни одна из запрошенных валют не найдена")
            else .ok rates
    else
      .error (.apiRequestError ("ExchangeRate-API вернул ошибку: " ++ errType fields))
  | _ => .error (.attrError "response json has no attribute get")

theorem fiatLoop_preserved (base : String) (conv : List (String × JsonVal))
    (codes : List String) (acc out : List (String × Rat))
    (h : fiatLoop base (.obj conv) codes acc = .ok out) (k : String)
    (hk : ∀ c ∈ codes, k ≠ c ++ "_" ++ base) :
    lookupKey out k = lookupKey acc k := by
  induction codes generalizing acc with
  | nil =>
    simp [fiatLoop] at h
    subst h
    rfl
  | cons c0 rest ih =>
    have hk' : ∀ c ∈ rest, k ≠ c ++ "_" ++ base :=
      fun c hc => hk c (List.mem_cons_of_mem _ hc)
    cases hl : lookupKey conv c0 with
    | none =>
      have h' : fiatLoop base (.obj conv) rest acc = .ok out := by
        simpa [fiatLoop, pyIn, hl] using h
      exact ih acc h' hk'
    | some v =>
      cases hinv : invertRate v with
      | error e => simp [fiatLoop, pyIn, pyIndex, hl, hinv] at h
      | ok r =>
        have h' : fiatLoop base (.obj conv) rest
            (setKey acc (c0 ++ "_" ++ base) r) = .ok out := by
          simpa [fiatLoop, pyIn, pyIndex, hl, hinv] using h
        rw [ih _ h' hk', lookup_setKey_ne _ _ _ _ (hk c0 (by simp))]

theorem fiatLoop_found (base : String) (conv : List (String × JsonVal))
    (codes : List String) (acc out : List (String × Rat))
    (h : fiatLoop base (.obj conv) codes acc = .ok out)
    (hnd : codes.Nodup) (code : String) (x : Rat)
    (hc : code ∈ codes) (hx : lookupKey conv code = some (.num x)) :
    lookupKey out (code ++ "_" ++ base) = some (if x = 0 then 0 else 1 / x) := by
  induction codes generalizing acc with
  | nil => cases hc
  | cons c0 rest ih =>
    rcases List.mem_cons.mp hc with rfl | hc'
    · have hinv : invertRate (.num x) = .ok (if x = 0 then 0 else 1 / x) := by
        by_cases hx0 : x = 0
        · simp [invertRate, pyEqZero, hx0]
        · simp [invertRate, pyEqZero, hx0]
      have h' : fiatLoop base (.obj conv) rest
          (setKey acc (code ++ "_" ++ base) (if x = 0 then 0 else 1 / x)) =
          .ok out := by
        simpa [fiatLoop, pyIn, pyIndex, hx, hinv] using h
      have hnotin : code ∉ rest := (List.nodup_cons.mp hnd).1
      have hpres := fiatLoop_preserved base conv rest _ out h'
        (code ++ "_" ++ base)
        (fun c' hc'mem heqkey => hnotin ((pairKey_inj heqkey) ▸ hc'mem))
      rw [hpres, lookup_setKey_self]
    · have hnd' : rest.Nodup := (List.nodup_cons.mp hnd).2
      cases hl : lookupKey conv c0 with
      | none =>
        have h' : fiatLoop base (.obj conv) rest acc = .ok out := by
          simpa [fiatLoop, pyIn, hl] using h
        exact ih _ h' hnd' hc'
      | some v =>
        cases hinv : invertRate v with
        | error e => simp [fiatLoop, pyIn, pyIndex, hl, hinv] at h
        | ok r =>
          have h' : fiatLoop base (.obj conv) rest
              (setKey acc (c0 ++ "_" ++ base) r) = .ok out := by
            simpa [fiatLoop, pyIn, pyIndex, hl, hinv] using h
          exact ih _ h' hnd' hc'

theorem fiatLoop_ok (base : String) (conv : List (String × JsonVal))
    (codes : List String) (acc : List (String × Rat))
    (hv : ∀ c ∈ codes, ∀ v, lookupKey conv c = some v → ∃ x, v = JsonVal.num x) :
    ∃ out, fiatLoop base (.obj conv) codes acc = .ok out := by
  induction codes generalizing acc with
  | nil => exact ⟨acc, rfl⟩
  | cons c0 rest ih =>
    have hv' : ∀ c ∈ rest, ∀ v, lookupKey conv c = some v → ∃ x, v = JsonVal.num x :=
      fun c hc => hv c (List.mem_cons_of_mem _ hc)
    cases hl : lookupKey conv c0 with
    | none =>
      obtain ⟨out, hout⟩ := ih acc hv'
      exact ⟨out, by simpa [fiatLoop, pyIn, hl] using hout⟩
    | some v =>
      obtain ⟨x, rfl⟩ := hv c0 (by simp) v hl
      have hinv : invertRate (.num x) = .ok (if x = 0 then 0 else 1 / x) := by
        by_cases hx0 : x = 0
        · simp [invertRate, pyEqZero, hx0]
        · simp [invertRate, pyEqZero, hx0]
      obtain ⟨out, hout⟩ :=
        ih (setKey acc (c0 ++ "_" ++ base) (if x = 0 then 0 else 1 / x)) hv'
      exact ⟨out, by simpa [fiatLoop, pyIn, pyIndex, hl, hinv] using hout⟩

/-- C4 (counterexample): a provider value of zero is *not* surfaced as an
error: for the requested code `EUR` with `conversion_rates = {"EUR": 0}`
the fiat adapter returns the pair `EUR_USD` with rate `0.0` (the inline
guard `if usd_to_fiat != 0 else 0.0` replaces the inversion), so the call
succeeds instead of raising `ApiRequestError`. -/
theorem fiat_zero_rate_cex :
    fetch_rates_fiat ["EUR"] "USD"
      (.obj [("result", .str "success"),
        ("conversion_rates", .obj [("EUR", .num 0)])]) =
      .ok [("EUR_USD", 0)] := by rfl

/-- C4 (amended): on a success response whose `conversion_rates` is a dict,
(1) every requested fiat code present in the provider map with numeric
value `X` is emitted as the pair `{CODE}_{BASE}` with rate `1/X` when
`X ≠ 0`, and with rate `0.0` when `X = 0` — a zero value is *not* an error
and does not divide by zero; (2) when every looked-up value is numeric and
at least one requested code is present in the non-empty map, the fetch
succeeds. -/
theorem fiat_inversion (fiat : List String) (base : String)
    (fields conv : List (String × JsonVal))
    (hres : lookupKey fields "result" = some (.str "success"))
    (hconv : lookupKey fields "conversion_rates" = some (.obj conv))
    (hnd : fiat.Nodup) :
    (∀ out, fetch_rates_fiat fiat base (.obj fields) = .ok out →
      ∀ code x, code ∈ fiat → lookupKey conv code = some (.num x) →
        lookupKey out (code ++ "_" ++ base) = some (if x = 0 then 0 else 1 / x))
    ∧ ((∀ c ∈ fiat, ∀ v, lookupKey conv c = some v → ∃ x, v = JsonVal.num x) →
        conv ≠ [] → (∃ c, c ∈ fiat ∧ ∃ x, lookupKey conv c = some (.num x)) →
        (fetch_rates_fiat fiat base (.obj fields)).isOk = true) := by
  constructor
  · intro out hout code x hcode hx
    have hloop : fiatLoop base (.obj conv) fiat [] = .ok out := by
      by_cases hconvne : conv = []
      · subst hconvne
        simp [hx, lookupKey] at hx
      · cases hl : fiatLoop base (.obj conv) fiat [] with
        | error e =>
          simp [fetch_rates_fiat, hres, hconv, pyTruthy, hconvne, hl] at hout
        | ok rates =>
          by_cases hre : rates.isEmpty
          · simp [fetch_rates_fiat, hres, hconv, pyTruthy, hconvne, hl, hre] at hout
          · simp [fetch_rates_fiat, hres, hconv, pyTruthy, hconvne, hl, hre] at hout
            rw [hout]
    exact fiatLoop_found base conv fiat [] out hloop hnd code x hcode hx
  · intro hv hconvne ⟨c, hcmem, x, hcx⟩
    obtain ⟨out, hout⟩ := fiatLoop_ok base conv fiat [] hv
    have hfound := fiatLoop_found base conv fiat [] out hout hnd c x hcmem hcx
    have houtne : out.isEmpty = false := by
      cases out with
      | nil => simp [lookupKey] at hfound
      | cons a l => rfl
    simp [fetch_rates_fiat, hres, hconv, pyTruthy, hconvne, hout, houtne,
      Except.isOk, Except.toBool]

/-- C4 (witness): the amended theorem at the concrete response
`{"result": "success", "conversion_rates": {"EUR": 2}}` for requested
codes `["EUR", "JPY"]`: `EUR_USD` carries `1/2` and the fetch succeeds. -/
theorem fiat_inversion_witness :
    lookupKey [("EUR_USD", (1 : Rat) / 2)] ("EUR" ++ "_" ++ "USD") =
      some (if (2 : Rat) = 0 then 0 else 1 / 2)
    ∧ (fetch_rates_fiat ["EUR", "JPY"] "USD"
        (.obj [("result", .str "success"),
          ("conversion_rates", .obj [("EUR", .num 2)])])).isOk = true := by
  have h := fiat_inversion ["EUR", "JPY"] "USD"
    [("result", .str "success"), ("conversion_rates", .obj [("EUR", .num 2)])]
    [("EUR", .num 2)] rfl rfl (by decide)
  constructor
  · exact h.1 [("EUR_USD", (1 : Rat) / 2)] (by rfl) "EUR" 2 (by decide) rfl
  · exact h.2
      (by
        intro c hc v hv
        rcases List.mem_cons.mp hc with rfl | hc
        · simp [lookupKey] at hv
          exact ⟨2, hv.symm⟩
        · rcases List.mem_cons.mp hc with rfl | hc
          · simp [lookupKey] at hv
          · cases hc)
      (by simp)
      ⟨"EUR", by decide, 2, rfl⟩

/-! ## Update coordinator: `RatesUpdater.run_update` (C2, C10) -/

/-- Outcome of one client's `fetch_rates()` call: a returned rates dict, a
raised `ApiRequestError`, or any other raised exception; the carried
string is `str(e)`. -/
inductive FetchOutcome where
  | rates (rs : List (String × Rat))
  | apiErr (msg : String)
  | exc (msg : String)

/-- The `isinstance(client, ...)` discrimination of `run_update` used for
the per-kind pair counts and source labels. -/
inductive ClientKind where
  | coinGecko
  | exchangeRate
  | other

/-- One configured client, abstracted to its class kind, its class name
(`client.__class__.__name__`) and the outcome of its fetch. -/
structure Client where
  kind : ClientKind
  name : String
  outcome : FetchOutcome

/-- The statistics dict of `run_update`. -/
structure Stats where
  crypto_count : Nat
  fiat_count : Nat
  total_count : Nat
  errors : Nat
  success : Nat
  failed : Nat
deriving DecidableEq, Repr

/-- The message of the `ValueError` raised when the tuple unpacking
`from_currency, _ = pair.split("_")` gets a number of parts other than
two. -/
def unpackMsg (n : Nat) : String :=
  if n < 2 then "not enough values to unpack (expected 2, got " ++ toString n ++ ")"
  else "too many values to unpack (expected 2)"

/-- The first failure inside the per-client history loop of `run_update`:
for each pair, the tuple unpacking of `pair.split("_")` (exactly two parts
required), then the validation in `add_history_record` via `parse_pair`.
History-file writes are assumed not to fail.  `none` means the loop
completes. -/
def historyFailure : List (String × Rat) → Option String
  | [] => none
  | (pair, _) :: rest =>
    if (splitUnderscore pair.data).length ≠ 2 then
      some (unpackMsg (splitUnderscore pair.data).length)
    else
      match parse_pair pair with
      | .error (.valueError m) => some m
      | .error _ => some ""
      | .ok _ => historyFailure rest

/-- `all_rates.update(rates)`: fold the dict assignment over the incoming
items. -/
def updateAll (m rs : List (String × Rat)) : List (String × Rat) :=
  rs.foldl (fun acc pr => setKey acc pr.1 pr.2) m

/-- One iteration of the client loop of `run_update`, acting on
`(stats, all_rates, errors)`.  On a fetch success the per-kind pair count
is *assigned* (not added), the rates are merged into `all_rates`, and only
then does the history loop run — so a client whose history loop fails
still leaves its pairs in `all_rates` and its count in the stats.  Every
failure appends `f"{client_name}: {str(e)}"` to the error list and bumps
`errors` and `failed`; a completed iteration bumps `success`. -/
def processClient (st : Stats × List (String × Rat) × List String) (c : Client) :
    Stats × List (String × Rat) × List String :=
  match c.outcome with
  | .rates rs =>
    let stats1 := match c.kind with
      | .coinGecko => { st.1 with crypto_count := rs.length }
      | .exchangeRate => { st.1 with fiat_count := rs.length }
      | .other => st.1
    let allRates1 := updateAll st.2.1 rs
    match historyFailure rs with
    | none => ({ stats1 with success := stats1.success + 1 }, allRates1, st.2.2)
    | some m =>
      ({ stats1 with errors := stats1.errors + 1, failed := stats1.failed + 1 },
        allRates1, st.2.2 ++ [c.name ++ ": " ++ m])
  | .apiErr m =>
    ({ st.1 with errors := st.1.errors + 1, failed := st.1.failed + 1 },
      st.2.1, st.2.2 ++ [c.name ++ ": " ++ m])
  | .exc m =>
    ({ st.1 with errors := st.1.errors + 1, failed := st.1.failed + 1 },
      st.2.1, st.2.2 ++ [c.name ++ ": " ++ m])

/-- The crypto/fiat partition of the aggregate map: unpack each pair key
(an uncaught `ValueError` when it does not split into exactly two parts)
and route by membership of the `from` currency in the configured crypto
list. -/
def groupPairs (cryptoCurrencies : List String) :
    List (String × Rat) → List (String × Rat) × List (String × Rat) →
    Except PyError (List (String × Rat) × List (String × Rat))
  | [], grp => .ok grp
  | (pair, rate) :: rest, grp =>
    match splitUnderscore pair.data with
    | [fromc, _] =>
      if String.mk fromc ∈ cryptoCurrencies then
        groupPairs cryptoCurrencies rest (setKey grp.1 pair rate, grp.2)
      else
        groupPairs cryptoCurrencies rest (grp.1, setKey grp.2 pair rate)
    | parts => .error (.valueError (unpackMsg parts.length))

/-- Result of `run_update`: the returned statistics dict, or the exception
it raises. -/
inductive RunResult where
  | stats (s : Stats)
  | raised (e : PyError)

/-- `RatesUpdater.run_update` (updater.py) for a list of abstract clients,
the configured crypto list, the cycle timestamp and the pre-cycle rates
cache.  File I/O is assumed not to fail, so the `except StorageError`
re-raise path never runs in the model.  The second component is the rates
cache that ends up persisted (partial when a raise happens between the two
`update_rates_cache` calls). -/
def run_update (clients : List Client) (cryptoCurrencies : List String)
    (t : String) (cache : RatesCache) : RunResult × RatesCache :=
  let folded := clients.foldl processClient (⟨0, 0, 0, 0, 0, 0⟩, [], [])
  if folded.2.1.isEmpty then
    (.raised (.apiRequestError
      ("Failed to fetch rates from all sources. " ++
        String.intercalate "; " folded.2.2)), cache)
  else
    match groupPairs cryptoCurrencies folded.2.1 ([], []) with
    | .error e => (.raised e, cache)
    | .ok (cryptoRates, fiatRates) =>
      match (if cryptoRates.isEmpty then Except.ok cache
          else (update_rates_cache cryptoRates "CoinGecko" t cache).map
            (fun r => r.cache)) with
      | .error e => (.raised e, cache)
      | .ok cache1 =>
        match (if fiatRates.isEmpty then Except.ok cache1
            else (update_rates_cache fiatRates "ExchangeRate-API" t cache1).map
              (fun r => r.cache)) with
        | .error e => (.raised e, cache1)
        | .ok cache2 =>
          (.stats { folded.1 with total_count := folded.2.1.length }, cache2)

theorem processClient_step (st0 : Stats × List (String × Rat) × List String)
    (c : Client) :
    (processClient st0 c).1.success + (processClient st0 c).1.failed =
      st0.1.success + st0.1.failed + 1
    ∧ (processClient st0 c).1.errors + st0.1.failed =
      st0.1.errors + (processClient st0 c).1.failed := by
  obtain ⟨k, n, o⟩ := c
  cases o with
  | rates rs =>
    cases hh : historyFailure rs with
    | none => cases k <;> simp [processClient, hh] <;> omega
    | some m => cases k <;> simp [processClient, hh] <;> omega
  | apiErr m => simp [processClient]; omega
  | exc m => simp [processClient]; omega

theorem processClient_fold_counts (clients : List Client)
    (st0 : Stats × List (String × Rat) × List String) :
    (clients.foldl processClient st0).1.success +
        (clients.foldl processClient st0).1.failed =
      st0.1.success + st0.1.failed + clients.length
    ∧ (clients.foldl processClient st0).1.errors + st0.1.failed =
      st0.1.errors + (clients.foldl processClient st0).1.failed := by
  induction clients generalizing st0 with
  | nil => simp
  | cons c rest ih =>
    obtain ⟨hs, he⟩ := processClient_step st0 c
    obtain ⟨hs2, he2⟩ := ih (processClient st0 c)
    constructor
    · simp only [List.foldl_cons, List.length_cons]
      omega
    · simp only [List.foldl_cons]
      omega

/-- C10: whenever `run_update` returns statistics rather than raising,
`success + failed` equals the number of configured clients (every client
accounted for exactly once) and `errors = failed` (the error counter
exactly tracks the failed-client counter). -/
theorem run_update_stats_invariant (clients : List Client)
    (crypto : List String) (t : String) (cache : RatesCache) (s : Stats)
    (cache2 : RatesCache)
    (h : run_update clients crypto t cache = (.stats s, cache2)) :
    s.success + s.failed = clients.length ∧ s.errors = s.failed := by
  obtain ⟨hs, he⟩ :=
    processClient_fold_counts clients (⟨0, 0, 0, 0, 0, 0⟩, [], [])
  simp only [run_update] at h
  generalize hF : clients.foldl processClient
    ((⟨0, 0, 0, 0, 0, 0⟩ : Stats), ([] : List (String × Rat)),
      ([] : List String)) = F at h hs he
  obtain ⟨stats0, allRates, errors⟩ := F
  simp only at h hs he
  by_cases hemp : allRates.isEmpty
  · simp [hemp] at h
  · simp only [hemp, Bool.false_eq_true, if_false] at h
    cases hgrp : groupPairs crypto allRates ([], []) with
    | error e => rw [hgrp] at h; simp at h
    | ok grp =>
      obtain ⟨cryptoRates, fiatRates⟩ := grp
      rw [hgrp] at h
      dsimp only at h
      cases hc1 : (if cryptoRates.isEmpty then Except.ok cache
          else (update_rates_cache cryptoRates "CoinGecko" t cache).map
            (fun r => r.cache)) with
      | error e => rw [hc1] at h; simp at h
      | ok cache1 =>
        rw [hc1] at h
        dsimp only at h
        cases hc2 : (if fiatRates.isEmpty then Except.ok cache1
            else (update_rates_cache fiatRates "ExchangeRate-API" t cache1).map
              (fun r => r.cache)) with
        | error e => rw [hc2] at h; simp at h
        | ok cache3 =>
          rw [hc2] at h
          dsimp only at h
          simp only [Prod.mk.injEq, RunResult.stats.injEq] at h
          obtain ⟨h1, -⟩ := h
          subst h1
          constructor
          · show stats0.success + stats0.failed = clients.length
            omega
          · show stats0.errors = stats0.failed
            omega

/-- C10 (witness): the invariant applied to a concrete single-client run
that returns the statistics
`{crypto_count: 0, fiat_count: 0, total_count: 1, errors: 0, success: 1,
failed: 0}`. -/
theorem run_update_stats_invariant_witness :
    (⟨0, 0, 1, 0, 1, 0⟩ : Stats).success + (⟨0, 0, 1, 0, 1, 0⟩ : Stats).failed =
      [(⟨.other, "A", .rates [("BTC_USD", 5)]⟩ : Client)].length
    ∧ (⟨0, 0, 1, 0, 1, 0⟩ : Stats).errors = (⟨0, 0, 1, 0, 1, 0⟩ : Stats).failed :=
  run_update_stats_invariant [⟨.other, "A", .rates [("BTC_USD", 5)]⟩]
    ["BTC"] "T1" ⟨[], none⟩ ⟨0, 0, 1, 0, 1, 0⟩
    ⟨[("BTC_USD", ⟨5, "T1", "CoinGecko"⟩)], some "T1"⟩ (by rfl)

/-- A client whose `fetch_rates()` raises. -/
def clientFetchFails (c : Client) : Bool :=
  match c.outcome with
  | .rates _ => false
  | _ => true

/-- A client whose fetch returns a dict of pairs that all pass
`parse_pair`, so its whole loop iteration completes. -/
def clientOk (c : Client) : Bool :=
  match c.outcome with
  | .rates rs => rs.all (fun pr => (parse_pair pr.1).isOk)
  | _ => false

/-- A client whose fetch returns a non-empty dict. -/
def clientNonempty (c : Client) : Bool :=
  match c.outcome with
  | .rates rs => !rs.isEmpty
  | _ => false

/-- The entry `f"{client_name}: {str(e)}"` recorded for a failing
client. -/
def clientErrMsg (c : Client) : String :=
  c.name ++ ": " ++
    (match c.outcome with
     | .apiErr m => m
     | .exc m => m
     | .rates _ => "")

theorem allfail_fold (clients : List Client)
    (st0 : Stats × List (String × Rat) × List String)
    (hall : ∀ c ∈ clients, clientFetchFails c = true) :
    clients.foldl processClient st0 =
      ({ st0.1 with
          errors := st0.1.errors + clients.length
          failed := st0.1.failed + clients.length },
        st0.2.1, st0.2.2 ++ clients.map clientErrMsg) := by
  induction clients generalizing st0 with
  | nil => simp
  | cons c rest ih =>
    have hc := hall c (by simp)
    have hrest : ∀ x ∈ rest, clientFetchFails x = true :=
      fun x hx => hall x (List.mem_cons_of_mem _ hx)
    obtain ⟨k, n, o⟩ := c
    cases o with
    | rates rs => simp [clientFetchFails] at hc
    | apiErr m =>
      rw [List.foldl_cons, ih _ hrest]
      simp [processClient, clientErrMsg]
      omega
    | exc m =>
      rw [List.foldl_cons, ih _ hrest]
      simp [processClient, clientErrMsg]
      omega

theorem parse_pair_split_len (s : String) (h : (parse_pair s).isOk = true) :
    (splitUnderscore s.data).length = 2 := by
  have hlen : (splitUnderscore s.data).length =
      ((splitUnderscore s.data).map String.mk).length := (List.length_map _ _).symm
  unfold parse_pair at h
  cases hs : (splitUnderscore s.data).map String.mk with
  | nil => rw [hs] at h; simp [Except.isOk, Except.toBool] at h
  | cons a tl =>
    cases tl with
    | nil => rw [hs] at h; simp [Except.isOk, Except.toBool] at h
    | cons b tl2 =>
      cases tl2 with
      | nil => rw [hlen, hs]; rfl
      | cons c tl3 => rw [hs] at h; simp [Except.isOk, Except.toBool] at h

theorem historyFailure_none_of_valid (rs : List (String × Rat))
    (hv : ∀ pr ∈ rs, (parse_pair pr.1).isOk = true) :
    historyFailure rs = none := by
  induction rs with
  | nil => rfl
  | cons hd rest ih =>
    obtain ⟨pair, r⟩ := hd
    have hp := hv (pair, r) (by simp)
    have hlen := parse_pair_split_len pair hp
    cases hpp : parse_pair pair with
    | error e => simp [hpp, Except.isOk, Except.toBool] at hp
    | ok v =>
      have := ih (fun pr hpr => hv pr (List.mem_cons_of_mem _ hpr))
      simp [historyFailure, hlen, hpp, this]

theorem setKey_ne_nil {α : Type} (l : List (String × α)) (k : String) (v : α) :
    setKey l k v ≠ [] := by
  cases l with
  | nil => simp [setKey]
  | cons hd tl =>
    obtain ⟨k0, v0⟩ := hd
    by_cases hk : k0 = k
    · simp [setKey, hk]
    · simp [setKey, hk]

theorem updateAll_ne_nil_left (m rs : List (String × Rat)) (hm : m ≠ []) :
    updateAll m rs ≠ [] := by
  induction rs generalizing m with
  | nil => exact hm
  | cons hd rest ih =>
    exact ih (setKey m hd.1 hd.2) (setKey_ne_nil m hd.1 hd.2)

theorem updateAll_ne_nil_right (m rs : List (String × Rat)) (hrs : rs ≠ []) :
    updateAll m rs ≠ [] := by
  cases rs with
  | nil => exact absurd rfl hrs
  | cons hd rest =>
    exact updateAll_ne_nil_left (setKey m hd.1 hd.2) rest
      (setKey_ne_nil m hd.1 hd.2)

theorem processClient_rates_ne (st : Stats × List (String × Rat) × List String)
    (c : Client) (hne : st.2.1 ≠ []) : (processClient st c).2.1 ≠ [] := by
  obtain ⟨k, n, o⟩ := c
  cases o with
  | rates rs =>
    cases hh : historyFailure rs with
    | none => simpa [processClient, hh] using updateAll_ne_nil_left st.2.1 rs hne
    | some m => simpa [processClient, hh] using updateAll_ne_nil_left st.2.1 rs hne
  | apiErr m => simpa [processClient] using hne
  | exc m => simpa [processClient] using hne

theorem fold_rates_ne (clients : List Client)
    (st0 : Stats × List (String × Rat) × List String) (hne : st0.2.1 ≠ []) :
    (clients.foldl processClient st0).2.1 ≠ [] := by
  induction clients generalizing st0 with
  | nil => exact hne
  | cons c rest ih =>
    exact ih (processClient st0 c) (processClient_rates_ne st0 c hne)

theorem fold_rates_ne_of_nonempty (clients : List Client)
    (st0 : Stats × List (String × Rat) × List String) (c : Client)
    (hc : c ∈ clients) (hcn : clientNonempty c = true) :
    (clients.foldl processClient st0).2.1 ≠ [] := by
  induction clients generalizing st0 with
  | nil => cases hc
  | cons a rest ih =>
    rcases List.mem_cons.mp hc with rfl | hc'
    · obtain ⟨k, n, o⟩ := c
      cases o with
      | rates rs =>
        have hrs : rs ≠ [] := by
          simpa [clientNonempty] using hcn
        have hstep : (processClient st0 ⟨k, n, .rates rs⟩).2.1 ≠ [] := by
          cases hh : historyFailure rs with
          | none =>
            simpa [processClient, hh] using updateAll_ne_nil_right st0.2.1 rs hrs
          | some m =>
            simpa [processClient, hh] using updateAll_ne_nil_right st0.2.1 rs hrs
        exact fold_rates_ne rest _ hstep
      | apiErr m => simp [clientNonempty] at hcn
      | exc m => simp [clientNonempty] at hcn
    · exact ih (processClient st0 a) hc'

theorem processClient_success_mono (st : Stats × List (String × Rat) × List String)
    (c : Client) : st.1.success ≤ (processClient st c).1.success := by
  obtain ⟨k, n, o⟩ := c
  cases o with
  | rates rs =>
    cases hh : historyFailure rs with
    | none => cases k <;> simp [processClient, hh]
    | some m => cases k <;> simp [processClient, hh]
  | apiErr m => simp [processClient]
  | exc m => simp [processClient]

theorem processClient_failed_mono (st : Stats × List (String × Rat) × List String)
    (c : Client) : st.1.failed ≤ (processClient st c).1.failed := by
  obtain ⟨k, n, o⟩ := c
  cases o with
  | rates rs =>
    cases hh : historyFailure rs with
    | none => cases k <;> simp [processClient, hh]
    | some m => cases k <;> simp [processClient, hh]
  | apiErr m => simp [processClient]
  | exc m => simp [processClient]

theorem fold_success_mono (clients : List Client)
    (st0 : Stats × List (String × Rat) × List String) :
    st0.1.success ≤ (clients.foldl processClient st0).1.success := by
  induction clients generalizing st0 with
  | nil => exact le_refl _
  | cons c rest ih =>
    exact le_trans (processClient_success_mono st0 c) (ih (processClient st0 c))

theorem fold_failed_mono (clients : List Client)
    (st0 : Stats × List (String × Rat) × List String) :
    st0.1.failed ≤ (clients.foldl processClient st0).1.failed := by
  induction clients generalizing st0 with
  | nil => exact le_refl _
  | cons c rest ih =>
    exact le_trans (processClient_failed_mono st0 c) (ih (processClient st0 c))

theorem fold_success_ge (clients : List Client)
    (st0 : Stats × List (String × Rat) × List String) (c : Client)
    (hc : c ∈ clients) (hok : clientOk c = true) :
    st0.1.success + 1 ≤ (clients.foldl processClient st0).1.success := by
  induction clients generalizing st0 with
  | nil => cases hc
  | cons a rest ih =>
    rcases List.mem_cons.mp hc with rfl | hc'
    · obtain ⟨k, n, o⟩ := c
      cases o with
      | rates rs =>
        have hval : ∀ pr ∈ rs, (parse_pair pr.1).isOk = true := by
          simpa [clientOk, List.all_eq_true] using hok
        have hh := historyFailure_none_of_valid rs hval
        have hstep : st0.1.success + 1 ≤ (processClient st0 ⟨k, n, .rates rs⟩).1.success := by
          cases k <;> simp [processClient, hh]
        exact le_trans hstep (fold_success_mono rest _)
      | apiErr m => simp [clientOk] at hok
      | exc m => simp [clientOk] at hok
    · exact le_trans
        (Nat.add_le_add_right (processClient_success_mono st0 a) 1)
        (ih (processClient st0 a) hc')

theorem fold_failed_ge (clients : List Client)
    (st0 : Stats × List (String × Rat) × List String) (c : Client)
    (hc : c ∈ clients) (hf : clientFetchFails c = true) :
    st0.1.failed + 1 ≤ (clients.foldl processClient st0).1.failed := by
  induction clients generalizing st0 with
  | nil => cases hc
  | cons a rest ih =>
    rcases List.mem_cons.mp hc with rfl | hc'
    · obtain ⟨k, n, o⟩ := c
      cases o with
      | rates rs => simp [clientFetchFails] at hf
      | apiErr m =>
        have hstep : st0.1.failed + 1 ≤ (processClient st0 ⟨k, n, .apiErr m⟩).1.failed := by
          simp [processClient]
        exact le_trans hstep (fold_failed_mono rest _)
      | exc m =>
        have hstep : st0.1.failed + 1 ≤ (processClient st0 ⟨k, n, .exc m⟩).1.failed := by
          simp [processClient]
        exact le_trans hstep (fold_failed_mono rest _)
    · exact le_trans
        (Nat.add_le_add_right (processClient_failed_mono st0 a) 1)
        (ih (processClient st0 a) hc')

theorem mem_keys_setKey {α : Type} (l : List (String × α)) (k0 : String) (v0 : α)
    (k : String) (hk : k ∈ (setKey l k0 v0).map Prod.fst) :
    k ∈ l.map Prod.fst ∨ k = k0 := by
  induction l with
  | nil =>
    simp only [setKey, List.map_cons, List.map_nil, List.mem_cons,
      List.not_mem_nil, or_false] at hk
    exact Or.inr hk
  | cons hd tl ih =>
    obtain ⟨k1, v1⟩ := hd
    by_cases h1 : k1 = k0
    · rw [show setKey ((k1, v1) :: tl) k0 v0 = (k1, v0) :: tl from by
        simp [setKey, h1]] at hk
      exact Or.inl hk
    · rw [show setKey ((k1, v1) :: tl) k0 v0 = (k1, v1) :: setKey tl k0 v0 from by
        simp [setKey, h1]] at hk
      simp only [List.map_cons, List.mem_cons] at hk ⊢
      rcases hk with rfl | hk
      · exact Or.inl (Or.inl rfl)
      · rcases ih hk with h2 | h2
        · exact Or.inl (Or.inr h2)
        · exact Or.inr h2

theorem mem_keys_updateAll (m rs : List (String × Rat)) (k : String)
    (hk : k ∈ (updateAll m rs).map Prod.fst) :
    k ∈ m.map Prod.fst ∨ k ∈ rs.map Prod.fst := by
  induction rs generalizing m with
  | nil => exact Or.inl hk
  | cons hd rest ih =>
    rcases ih (setKey m hd.1 hd.2) hk with h1 | h1
    · rcases mem_keys_setKey m hd.1 hd.2 k h1 with h2 | h2
      · exact Or.inl h2
      · exact Or.inr (by simp [h2])
    · exact Or.inr (by simp [h1])

theorem fold_keys_ok (clients : List Client)
    (st0 : Stats × List (String × Rat) × List String)
    (hcl : ∀ c ∈ clients, clientOk c = true ∨ clientFetchFails c = true)
    (h0 : ∀ k ∈ st0.2.1.map Prod.fst, (parse_pair k).isOk = true) :
    ∀ k ∈ (clients.foldl processClient st0).2.1.map Prod.fst,
      (parse_pair k).isOk = true := by
  induction clients generalizing st0 with
  | nil => exact h0
  | cons a rest ih =>
    refine ih (processClient st0 a)
      (fun c hc => hcl c (List.mem_cons_of_mem _ hc)) ?_
    intro k hk
    obtain ⟨kk, n, o⟩ := a
    cases o with
    | rates rs =>
      rcases hcl ⟨kk, n, .rates rs⟩ (by simp) with hok | hfail
      · have hval : ∀ pr ∈ rs, (parse_pair pr.1).isOk = true := by
          simpa [clientOk, List.all_eq_true] using hok
        have hk2 : k ∈ (updateAll st0.2.1 rs).map Prod.fst := by
          cases hh : historyFailure rs with
          | none => simpa [processClient, hh] using hk
          | some m => simpa [processClient, hh] using hk
        rcases mem_keys_updateAll st0.2.1 rs k hk2 with h1 | h1
        · exact h0 k h1
        · obtain ⟨pr, hpr, hprk⟩ := List.mem_map.mp h1
          subst hprk
          exact hval pr hpr
      · simp [clientFetchFails] at hfail
    | apiErr m => exact h0 k (by simpa [processClient] using hk)
    | exc m => exact h0 k (by simpa [processClient] using hk)

theorem groupPairs_ok (crypto : List String) (l : List (String × Rat))
    (grp0 : List (String × Rat) × List (String × Rat))
    (hv : ∀ kv ∈ l, (parse_pair kv.1).isOk = true) :
    ∃ grp, groupPairs crypto l grp0 = .ok grp := by
  induction l generalizing grp0 with
  | nil => exact ⟨grp0, rfl⟩
  | cons hd rest ih =>
    obtain ⟨pair, rate⟩ := hd
    have hlen := parse_pair_split_len pair (hv (pair, rate) (by simp))
    obtain ⟨a, b, hab⟩ : ∃ a b, splitUnderscore pair.data = [a, b] := by
      cases hsp : splitUnderscore pair.data with
      | nil => rw [hsp] at hlen; simp at hlen
      | cons x tl =>
        cases tl with
        | nil => rw [hsp] at hlen; simp at hlen
        | cons y tl2 =>
          cases tl2 with
          | nil => exact ⟨x, y, rfl⟩
          | cons z tl3 => rw [hsp] at hlen; simp at hlen
    have hv' : ∀ kv ∈ rest, (parse_pair kv.1).isOk = true :=
      fun kv hkv => hv kv (List.mem_cons_of_mem _ hkv)
    by_cases hmem : String.mk a ∈ crypto
    · obtain ⟨grp, hgrp⟩ := ih (setKey grp0.1 pair rate, grp0.2) hv'
      exact ⟨grp, by simpa [groupPairs, hab, hmem] using hgrp⟩
    · obtain ⟨grp, hgrp⟩ := ih (grp0.1, setKey grp0.2 pair rate) hv'
      exact ⟨grp, by simpa [groupPairs, hab, hmem] using hgrp⟩

theorem groupPairs_sub (crypto : List String) (l : List (String × Rat))
    (grp0 grp : List (String × Rat) × List (String × Rat))
    (h : groupPairs crypto l grp0 = .ok grp) :
    (∀ kv ∈ grp.1, kv ∈ grp0.1 ∨ kv ∈ l) ∧
    (∀ kv ∈ grp.2, kv ∈ grp0.2 ∨ kv ∈ l) := by
  induction l generalizing grp0 with
  | nil =>
    simp [groupPairs] at h
    subst h
    exact ⟨fun kv hkv => Or.inl hkv, fun kv hkv => Or.inl hkv⟩
  | cons hd rest ih =>
    obtain ⟨pair, rate⟩ := hd
    cases hsp : splitUnderscore pair.data with
    | nil => simp [groupPairs, hsp] at h
    | cons x tl =>
      cases tl with
      | nil => simp [groupPairs, hsp] at h
      | cons y tl2 =>
        cases tl2 with
        | cons z tl3 => simp [groupPairs, hsp] at h
        | nil =>
          by_cases hmem : String.mk x ∈ crypto
          · have h' : groupPairs crypto rest (setKey grp0.1 pair rate, grp0.2) =
                .ok grp := by simpa [groupPairs, hsp, hmem] using h
            obtain ⟨ih1, ih2⟩ := ih (setKey grp0.1 pair rate, grp0.2) h'
            constructor
            · intro kv hkv
              obtain ⟨k2, v2⟩ := kv
              rcases ih1 (k2, v2) hkv with h1 | h1
              · rcases mem_setKey grp0.1 pair rate k2 v2 h1 with h2 | h2
                · exact Or.inl h2
                · exact Or.inr (by simp [h2.1, h2.2])
              · exact Or.inr (List.mem_cons_of_mem _ h1)
            · intro kv hkv
              rcases ih2 kv hkv with h1 | h1
              · exact Or.inl h1
              · exact Or.inr (List.mem_cons_of_mem _ h1)
          · have h' : groupPairs crypto rest (grp0.1, setKey grp0.2 pair rate) =
                .ok grp := by simpa [groupPairs, hsp, hmem] using h
            obtain ⟨ih1, ih2⟩ := ih (grp0.1, setKey grp0.2 pair rate) h'
            constructor
            · intro kv hkv
              rcases ih1 kv hkv with h1 | h1
              · exact Or.inl h1
              · exact Or.inr (List.mem_cons_of_mem _ h1)
            · intro kv hkv
              obtain ⟨k2, v2⟩ := kv
              rcases ih2 (k2, v2) hkv with h1 | h1
              · rcases mem_setKey grp0.2 pair rate k2 v2 h1 with h2 | h2
                · exact Or.inl h2
                · exact Or.inr (by simp [h2.1, h2.2])
              · exact Or.inr (List.mem_cons_of_mem _ h1)

/-- Does `run_update` return a statistics dict (rather than raise)? -/
def runReturnsStats : RunResult → Bool
  | .stats _ => true
  | .raised _ => false

/-- The `success` counter of a returned statistics dict (`0` on a raise). -/
def statsSuccessOf : RunResult → Nat
  | .stats s => s.success
  | .raised _ => 0

/-- The `failed` counter of a returned statistics dict (`0` on a raise). -/
def statsFailedOf : RunResult → Nat
  | .stats s => s.failed
  | .raised _ => 0

/-- C2 (counterexample): an adapter list in which one fetch succeeds (with
an empty dict) and one fails does *not* return statistics — `run_update`
raises `ApiRequestError` because the raise condition is emptiness of the
aggregated map, not failure of every adapter. -/
theorem run_update_partial_cex :
    run_update [⟨.other, "A", .rates []⟩, ⟨.other, "B", .apiErr "boom"⟩]
      ["BTC"] "T1" ⟨[], none⟩ =
      (.raised (.apiRequestError
        "Failed to fetch rates from all sources. B: boom"), ⟨[], none⟩)
    ∧ clientFetchFails ⟨.other, "A", .rates []⟩ = false :=
  ⟨by rfl, by rfl⟩

/-- C2 (amended): (a) for every adapter list in which every adapter either
completes cleanly (fetch returns a dict whose pair keys all validate) or
fails at fetch, with at least one clean adapter returning a non-empty dict
and at least one adapter failing at fetch, `run_update` returns statistics
with `success ≥ 1` and `failed ≥ 1` without raising; (b) when every
adapter's fetch fails, `run_update` raises `ApiRequestError` whose message
concatenates all collected per-adapter error messages
(`f"{name}: {str(e)}"`, joined by `"; "`).  The raise condition in the
source is emptiness of the aggregated rate map, so a succeeding adapter
with an empty dict (or one whose history loop fails after its rates were
merged) falls outside the unqualified claim. -/
theorem run_update_partial_failure :
    (∀ clients (crypto : List String) (t : String) cache,
      (∀ c ∈ clients, clientOk c = true ∨ clientFetchFails c = true) →
      (∃ c, c ∈ clients ∧ clientOk c = true ∧ clientNonempty c = true) →
      (∃ c, c ∈ clients ∧ clientFetchFails c = true) →
      runReturnsStats (run_update clients crypto t cache).1 = true
      ∧ 1 ≤ statsSuccessOf (run_update clients crypto t cache).1
      ∧ 1 ≤ statsFailedOf (run_update clients crypto t cache).1)
    ∧ (∀ clients (crypto : List String) (t : String) cache,
        (∀ c ∈ clients, clientFetchFails c = true) →
        run_update clients crypto t cache =
          (.raised (.apiRequestError
            ("Failed to fetch rates from all sources. " ++
              String.intercalate "; " (clients.map clientErrMsg))), cache)) := by
  constructor
  · intro clients crypto t cache hcl hgood hfail
    obtain ⟨cg, hcgmem, hcgok, hcgne⟩ := hgood
    obtain ⟨cf, hcfmem, hcff⟩ := hfail
    have hsucc := fold_success_ge clients (⟨0, 0, 0, 0, 0, 0⟩, [], []) cg hcgmem hcgok
    have hfld := fold_failed_ge clients (⟨0, 0, 0, 0, 0, 0⟩, [], []) cf hcfmem hcff
    have hne := fold_rates_ne_of_nonempty clients (⟨0, 0, 0, 0, 0, 0⟩, [], [])
      cg hcgmem hcgne
    have hkeys := fold_keys_ok clients (⟨0, 0, 0, 0, 0, 0⟩, [], []) hcl (by simp)
    generalize hF : clients.foldl processClient
      ((⟨0, 0, 0, 0, 0, 0⟩ : Stats), ([] : List (String × Rat)),
        ([] : List String)) = F at hsucc hfld hne hkeys
    obtain ⟨stats0, allRates, errors⟩ := F
    simp only at hsucc hfld hne hkeys
    have hemp : allRates.isEmpty = false := by
      cases allRates with
      | nil => exact absurd rfl hne
      | cons a l => rfl
    obtain ⟨grp, hgrp⟩ := groupPairs_ok crypto allRates ([], [])
      (fun kv hkv => hkeys kv.1 (List.mem_map_of_mem _ hkv))
    obtain ⟨cr, fi⟩ := grp
    obtain ⟨hsub1, hsub2⟩ := groupPairs_sub crypto allRates ([], []) (cr, fi) hgrp
    have hcrok : ∀ pr ∈ cr, (parse_pair pr.1).isOk = true := by
      intro pr hpr
      rcases hsub1 pr hpr with h1 | h1
      · exact absurd h1 (List.not_mem_nil pr)
      · exact hkeys pr.1 (List.mem_map_of_mem _ h1)
    have hfiok : ∀ pr ∈ fi, (parse_pair pr.1).isOk = true := by
      intro pr hpr
      rcases hsub2 pr hpr with h1 | h1
      · exact absurd h1 (List.not_mem_nil pr)
      · exact hkeys pr.1 (List.mem_map_of_mem _ h1)
    have h1 : ∃ cache1, (if cr.isEmpty then Except.ok cache
        else (update_rates_cache cr "CoinGecko" t cache).map
          (fun r => r.cache)) = .ok cache1 := by
      by_cases hcre : cr.isEmpty
      · exact ⟨cache, by simp [hcre]⟩
      · obtain ⟨out, hout⟩ := updateLoop_ok_of_valid "CoinGecko" t cr cache.pairs 0 hcrok
        obtain ⟨ps, cnt⟩ := out
        exact ⟨⟨ps, some t⟩, by simp [hcre, update_rates_cache, hout, Except.map]⟩
    obtain ⟨cache1, hc1⟩ := h1
    have h2 : ∃ cache3, (if fi.isEmpty then Except.ok cache1
        else (update_rates_cache fi "ExchangeRate-API" t cache1).map
          (fun r => r.cache)) = .ok cache3 := by
      by_cases hfie : fi.isEmpty
      · exact ⟨cache1, by simp [hfie]⟩
      · obtain ⟨out, hout⟩ := updateLoop_ok_of_valid "ExchangeRate-API" t fi cache1.pairs 0 hfiok
        obtain ⟨ps, cnt⟩ := out
        exact ⟨⟨ps, some t⟩, by simp [hfie, update_rates_cache, hout, Except.map]⟩
    obtain ⟨cache3, hc2⟩ := h2
    have hrun : run_update clients crypto t cache =
        (.stats { stats0 with total_count := allRates.length }, cache3) := by
      simp only [run_update, hF]
      simp only [hemp, Bool.false_eq_true, if_false, hgrp, hc1, hc2]
    rw [hrun]
    refine ⟨rfl, ?_, ?_⟩
    · show 1 ≤ stats0.success
      omega
    · show 1 ≤ stats0.failed
      omega
  · intro clients crypto t cache hall
    have hfold := allfail_fold clients (⟨0, 0, 0, 0, 0, 0⟩, [], []) hall
    simp [run_update, hfold]

/-- C2 (witness): the amended theorem applied at concrete adapter lists:
one clean non-empty adapter plus one failing adapter yields statistics with
`success ≥ 1` and `failed ≥ 1`; two failing adapters yield the
`ApiRequestError` whose message joins `X: down` and `Y: oops` with
`"; "`. -/
theorem run_update_partial_failure_witness :
    (runReturnsStats (run_update
        [⟨.coinGecko, "CoinGeckoClient", .rates [("BTC_USD", 5)]⟩,
          ⟨.exchangeRate, "ExchangeRateApiClient", .apiErr "down"⟩]
        ["BTC"] "T1" ⟨[], none⟩).1 = true)
    ∧ run_update
        [⟨.other, "X", .apiErr "down"⟩, ⟨.other, "Y", .exc "oops"⟩]
        ["BTC"] "T1" ⟨[], none⟩ =
      (.raised (.apiRequestError
        ("Failed to fetch rates from all sources. " ++
          String.intercalate "; "
            ([⟨.other, "X", .apiErr "down"⟩,
              (⟨.other, "Y", .exc "oops"⟩ : Client)].map clientErrMsg))),
        ⟨[], none⟩) :=
  ⟨(run_update_partial_failure.1
      [⟨.coinGecko, "CoinGeckoClient", .rates [("BTC_USD", 5)]⟩,
        ⟨.exchangeRate, "ExchangeRateApiClient", .apiErr "down"⟩]
      ["BTC"] "T1" ⟨[], none⟩
      (by
        intro c hc
        rcases List.mem_cons.mp hc with rfl | hc
        · exact Or.inl (by rfl)
        · rcases List.mem_cons.mp hc with rfl | hc
          · exact Or.inr (by rfl)
          · cases hc)
      ⟨⟨.coinGecko, "CoinGeckoClient", .rates [("BTC_USD", 5)]⟩,
        by simp, by rfl, by rfl⟩
      ⟨⟨.exchangeRate, "ExchangeRateApiClient", .apiErr "down"⟩,
        by simp, by rfl⟩).1,
   run_update_partial_failure.2
      [⟨.other, "X", .apiErr "down"⟩, ⟨.other, "Y", .exc "oops"⟩]
      ["BTC"] "T1" ⟨[], none⟩
      (by
        intro c hc
        rcases List.mem_cons.mp hc with rfl | hc
        · rfl
        · rcases List.mem_cons.mp hc with rfl | hc
          · rfl
          · cases hc)⟩

end ValutaTrade
